import Mathlib

/-!
Shallow embedding of the mining core of radon-h2020/radon-iac-miner
(file src/miner/repository.py, with the entity classes of
src/iacminer/entities/file.py), and proofs about it.

Modelling conventions:
* a commit hash is a `String`; a file path is an `Option String`, matching
  the Python code where a path is a `str` or `None`;
* the collaborators (the pydriller traversals, the GitHub issue tracker,
  the relevance filter `filters.is_ansible_file`, and the blame lookup
  `GitRepository.get_commits_last_modified_lines`) are modelled as data: a
  repository is a chronologically ordered list of `Commit` records, each
  carrying, per modified file, the blame result for its new path;
* Python exceptions (`ValueError` raised by `list.index` and
  `list.remove`, `KeyError` raised by `dict[...]`, `IndexError` raised by
  `list[-1]` and `list[0]`) are modelled by `PyErr`; generator semantics
  are modelled by returning the list of yielded items together with an
  optional error that interrupted the generator.
-/

namespace IacMiner

/-- A file path as the Python code handles it: a string or `None`. -/
abbrev Path := Option String

/-- Change type of a modified file (pydriller `ModificationType`). -/
inductive ChangeType
  | ADD
  | COPY
  | RENAME
  | DELETE
  | MODIFY
  | UNKNOWN
  deriving DecidableEq, Repr, Inhabited

/-- One modified file inside a commit, as the miner consumes it.  The
`blame` field models the set
`git_repo.get_commits_last_modified_lines(commit, modified_file)` at the
key `modified_file.new_path` (the only key the code reads); an empty list
models a missing or empty entry. -/
structure Modification where
  old_path : Path
  new_path : Path
  change_type : ChangeType
  blame : List String
  deriving DecidableEq, Repr, Inhabited

/-- One commit of the repository: its hash, its message (a list of
characters, for the message-regex phase) and its modified files. -/
structure Commit where
  hash : String
  msg : List Char
  modifications : List Modification
  deriving DecidableEq, Repr, Inhabited

/-- The date-ordered list of commit hashes (`self.commit_hashes`). -/
def commitHashes (history : List Commit) : List String := history.map (·.hash)

/-- FixingFile record: a file modified in a fixing commit `fic`, with its
oldest bug-inducing commit `bic`.  The class used by
src/miner/repository.py lives in miner/file.py which is not under src/;
its shape is modelled from the spec (section 3: filepath, bic, fic, and
equality by `filepath` alone) and matches `src/iacminer/entities/file.py`
where `__eq__` compares `filepath` only. -/
structure FixingFile where
  filepath : Path
  bic : String
  fic : String
  deriving DecidableEq, Repr, Inhabited

/-- LabeledFile label values.  Modelled from the spec: miner/file.py is
not under src/; the spec (section 3) gives the single emitted label
FAILURE_PRONE (the CLEAN branch in `label` is commented out in the code). -/
inductive FPLabel
  | FAILURE_PRONE
  deriving DecidableEq, Repr, Inhabited

/-- LabeledFile record.  Modelled from the spec (section 3): miner/file.py
is not under src/; fields are filepath, commit, label, fixing_commit. -/
structure LabeledFile where
  filepath : Path
  commit : String
  label : FPLabel
  fixing_commit : String
  deriving DecidableEq, Repr, Inhabited

/-- Python exceptions the mining code can raise. -/
inductive PyErr
  | valueError (what : String)
  | keyError (key : Path)
  | indexError
  deriving DecidableEq, Repr

/-- Python `list.index` made total: position of the first occurrence of
`x` in `l`, or `none` where Python raises `ValueError`. -/
def pyIndex (l : List String) (x : String) : Option Nat :=
  match l with
  | [] => none
  | h :: t => if h = x then some 0 else (pyIndex t x).map (· + 1)

/-- Python `list.index`, with the `ValueError` made explicit. -/
def pyIndexE (l : List String) (x : String) : Except PyErr Nat :=
  match pyIndex l x with
  | some i => .ok i
  | none => .error (.valueError x)

/-- RepositoryMiner.sort_commits: rebuild `commits` as the sublist of
`commit_hashes` made of the hashes occurring in `commits` (so the result
is in ascending date order, without duplicates). -/
def sort_commits (commit_hashes commits : List String) : List String :=
  commit_hashes.filter (fun sha => commits.contains sha)

/-- Python `dict.get` on the `renamed_files` dictionary. -/
def dictGet (d : List (Path × Path)) (k : Path) : Option Path :=
  match d with
  | [] => none
  | (k', v) :: t => if k' = k then some v else dictGet t k

/-- Python `dict[k] = v` on the `renamed_files` dictionary. -/
def dictSet (d : List (Path × Path)) (k v : Path) : List (Path × Path) :=
  match d with
  | [] => [(k, v)]
  | (k', v') :: t => if k' = k then (k', v) :: t else (k', v') :: dictSet t k v

/-- Python `fixing_files.index(f)` made total: position of the first
element equal to `f` under `FixingFile.__eq__`, which compares by
`filepath` alone. -/
def pyFindIdx (l : List FixingFile) (f : FixingFile) : Option Nat :=
  match l with
  | [] => none
  | h :: t => if h.filepath = f.filepath then some 0 else (pyFindIdx t f).map (· + 1)

/-- Merge step of RepositoryMiner.get_fixing_files (repository.py lines
238-250): place `current_fix` into `fixing_files`.  If no entry shares its
filepath, append it.  Otherwise let `existing_fix` be the first entry
sharing the filepath: if the current fixing commit is older than the
existing bug-inducing commit, append `current_fix` as a separate entry;
else if the current bug-inducing commit is older than the existing one,
update `existing_fix.bic` in place; else leave the list unchanged. -/
def mergeFix (ch : List String) (fixing_files : List FixingFile)
    (current_fix : FixingFile) : Except PyErr (List FixingFile) :=
  match pyFindIdx fixing_files current_fix with
  | none => .ok (fixing_files ++ [current_fix])
  | some idx =>
    let existing_fix := fixing_files.getD idx default
    match pyIndex ch current_fix.fic with
    | none => .error (.valueError current_fix.fic)
    | some ificCur =>
      match pyIndex ch existing_fix.bic with
      | none => .error (.valueError existing_fix.bic)
      | some ibicEx =>
        if ificCur < ibicEx then .ok (fixing_files ++ [current_fix])
        else
          match pyIndex ch current_fix.bic with
          | none => .error (.valueError current_fix.bic)
          | some ibicCur =>
            if ibicCur < ibicEx then
              .ok (fixing_files.set idx { existing_fix with bic := current_fix.bic })
            else .ok fixing_files

/-- Per-modified-file body of the extraction loop of
RepositoryMiner.get_fixing_files (repository.py lines 200-250): rename
bookkeeping, filtering, blame attribution and the merge step.  The state
is the pair (renamed_files, fixing_files); `fc` is the sorted
`self.fixing_commits` and `chash` the hash of the visited commit. -/
def processMod (ch : List String) (isRelevant : Path → Bool) (fc : List String)
    (chash : String) (st : List (Path × Path) × List FixingFile)
    (m : Modification) : Except PyErr (List (Path × Path) × List FixingFile) :=
  let (renamed_files, fixing_files) := st
  if m.change_type ≠ ChangeType.MODIFY ∧ m.change_type ≠ ChangeType.RENAME then
    .ok st
  else
    let renamed_files :=
      if m.change_type = ChangeType.RENAME then
        match dictGet renamed_files m.new_path with
        | some v => dictSet renamed_files m.old_path v
        | none =>
          if fc.contains chash then dictSet renamed_files m.old_path m.new_path
          else renamed_files
      else renamed_files
    if ¬ fc.contains chash then .ok (renamed_files, fixing_files)
    else if ¬ isRelevant m.new_path then .ok (renamed_files, fixing_files)
    else if m.blame.isEmpty then .ok (renamed_files, fixing_files)
    else
      match (sort_commits ch m.blame).head? with
      | none => .error .indexError
      | some bic =>
        let current_fix : FixingFile :=
          { filepath := (dictGet renamed_files m.new_path).getD m.new_path
            bic := bic
            fic := chash }
        match mergeFix ch fixing_files current_fix with
        | .ok fixing_files' => .ok (renamed_files, fixing_files')
        | .error e => .error e

/-- Modification loop of get_fixing_files over one commit. -/
def goModsExtract (ch : List String) (isRelevant : Path → Bool) (fc : List String)
    (chash : String) (st : List (Path × Path) × List FixingFile) :
    List Modification → Except PyErr (List (Path × Path) × List FixingFile)
  | [] => .ok st
  | m :: rest =>
    match processMod ch isRelevant fc chash st m with
    | .ok st' => goModsExtract ch isRelevant fc chash st' rest
    | .error e => .error e

/-- Commit loop of get_fixing_files over the reversed traversal. -/
def goCommitsExtract (ch : List String) (isRelevant : Path → Bool) (fc : List String)
    (st : List (Path × Path) × List FixingFile) :
    List Commit → Except PyErr (List (Path × Path) × List FixingFile)
  | [] => .ok st
  | c :: rest =>
    match goModsExtract ch isRelevant fc c.hash st c.modifications with
    | .ok st' => goCommitsExtract ch isRelevant fc st' rest
    | .error e => .error e

/-- RepositoryMiner.get_fixing_files (repository.py lines 178-252).  If
`self.fixing_commits` is empty it returns at once leaving the state
unchanged; otherwise it sorts `self.fixing_commits`, resets
`self.fixing_files` and walks the commits from the newest fixing commit
down to the oldest fixing commit, building the fixing files.  The result
is the post state (fixing_commits, fixing_files); `fixing_files0` is the
value of `self.fixing_files` on entry. -/
def get_fixing_files (history : List Commit) (isRelevant : Path → Bool)
    (fixing_commits : List String) (fixing_files0 : List FixingFile) :
    Except PyErr (List String × List FixingFile) :=
  if fixing_commits.isEmpty then .ok (fixing_commits, fixing_files0)
  else
    let ch := commitHashes history
    let fc := sort_commits ch fixing_commits
    match fc.getLast?, fc.head? with
    | some lastF, some firstF =>
      match pyIndexE ch lastF with
      | .error e => .error e
      | .ok ilast =>
        match pyIndexE ch firstF with
        | .error e => .error e
        | .ok ifirst =>
          let trav := ((history.drop ifirst).take (ilast + 1 - ifirst)).reverse
          match goCommitsExtract ch isRelevant fc ([], []) trav with
          | .ok (_, fixing_files) => .ok (fc, fixing_files)
          | .error e => .error e
    | _, _ => .error .indexError

/-- State of the labeling generator.  The FixingFile objects of
`self.fixing_files` live in `files` and keep their identity (their array
index); `labeling` is the Python dict mapping a filepath to the list of
objects (as indices) appended under that key, in insertion order.  `out`
collects the values yielded so far. -/
structure LabelSt where
  files : Array FixingFile
  labeling : List (Path × List Nat)
  out : List (Option LabeledFile)
  deriving DecidableEq, Repr

/-- Result of running the `label` generator to completion or to the
exception that interrupted it: the yielded values in order, the optional
exception, and the final state of the FixingFile objects. -/
structure LabelResult where
  yields : List (Option LabeledFile)
  error : Option PyErr
  files : Array FixingFile
  deriving DecidableEq, Repr

/-- Python `labeling.setdefault(p, list()).append(i)`. -/
def addToLabeling (labeling : List (Path × List Nat)) (p : Path) (i : Nat) :
    List (Path × List Nat) :=
  match labeling with
  | [] => [(p, [i])]
  | (k, g) :: t =>
    if k = p then (k, g ++ [i]) :: t else (k, g) :: addToLabeling t p i

/-- Build the `labeling` dict from `self.fixing_files` (lines 264-266). -/
def buildLabeling (files : Array FixingFile) : List (Path × List Nat) :=
  (List.range files.size).foldl
    (fun l i => addToLabeling l (files.getD i default).filepath i) []

/-- Python `labeling.get(k)` (`none` models a missing key). -/
def lookupGroup (labeling : List (Path × List Nat)) (k : Path) : Option (List Nat) :=
  match labeling with
  | [] => none
  | (k', g) :: t => if k' = k then some g else lookupGroup t k

/-- Replace the list stored under an existing key (models in-place
mutation of the list object held by the dict). -/
def setGroup (labeling : List (Path × List Nat)) (k : Path) (g : List Nat) :
    List (Path × List Nat) :=
  match labeling with
  | [] => []
  | (k', g') :: t => if k' = k then (k', g) :: t else (k', g') :: setGroup t k g

/-- Position removed by Python `group.remove(file)`: the first element of
the group whose object's filepath equals `p` under `FixingFile.__eq__`
(`none` models the `ValueError` of `list.remove`). -/
def findRemoveIdx (files : Array FixingFile) (g : List Nat) (p : Path) : Option Nat :=
  match g with
  | [] => none
  | i :: t =>
    if (files.getD i default).filepath = p then some 0
    else (findRemoveIdx files t p).map (· + 1)

/-- Inner loop of the emission phase of `label` (lines 274-293) over one
group of the dict, with Python list-iterator semantics: the group is
re-read from the live dict at every step and the iterator position `j`
only ever advances, so a removal shifts the remaining elements left.
`fuel` bounds the iteration count (the live group never grows). -/
def groupLoop (ch : List String) (chash : String) (k : Path) :
    Nat → Nat → LabelSt → LabelSt × Option PyErr
  | 0, _, st => (st, none)
  | fuel + 1, j, st =>
    let g := (lookupGroup st.labeling k).getD []
    if hj : j < g.length then
      let i := g.get ⟨j, hj⟩
      let f := st.files.getD i default
      match pyIndex ch f.fic with
      | none => (st, some (.valueError f.fic))
      | some idx_fic =>
        match pyIndex ch f.bic with
        | none => (st, some (.valueError f.bic))
        | some idx_bic =>
          match pyIndex ch chash with
          | none => (st, some (.valueError chash))
          | some idx_commit =>
            if idx_fic > idx_commit ∧ idx_commit ≥ idx_bic then
              let st := { st with
                out := st.out ++ [some ⟨f.filepath, chash, .FAILURE_PRONE, f.fic⟩] }
              if idx_commit = idx_bic then
                match lookupGroup st.labeling f.filepath with
                | none => (st, some (.keyError f.filepath))
                | some tg =>
                  match findRemoveIdx st.files tg f.filepath with
                  | none => (st, some (.valueError "list.remove"))
                  | some r =>
                    groupLoop ch chash k fuel (j + 1)
                      { st with labeling := setGroup st.labeling f.filepath (tg.eraseIdx r) }
              else groupLoop ch chash k fuel (j + 1) st
            else groupLoop ch chash k fuel (j + 1) st
    else (st, none)

/-- Emission phase of `label` for one commit: iterate the dict groups in
key insertion order (`labeling.values()`; the key set never changes). -/
def goKeys (ch : List String) (chash : String) (st : LabelSt) :
    List Path → LabelSt × Option PyErr
  | [] => (st, none)
  | k :: rest =>
    let g := (lookupGroup st.labeling k).getD []
    match groupLoop ch chash k (g.length + 1) 0 st with
    | (st', none) => goKeys ch chash st' rest
    | err => err

/-- Rename-handling scan of `label` (lines 299-307) over a snapshot of one
group (`list(labeling.get(filepath, list()))`): find the first tracked
file whose window contains the commit, act on it (remove it on ADD,
retarget its filepath on RENAME), and stop.  The chained comparison
evaluates `file.fic`, then `commit.hash`, and `file.bic` only if the
first comparison holds. -/
def snapLoop (ch : List String) (chash : String) (m : Modification) (st : LabelSt) :
    List Nat → LabelSt × Option PyErr
  | [] => (st, none)
  | i :: rest =>
    let f := st.files.getD i default
    match pyIndex ch f.fic with
    | none => (st, some (.valueError f.fic))
    | some idx_fic =>
      match pyIndex ch chash with
      | none => (st, some (.valueError chash))
      | some idx_commit =>
        if idx_fic > idx_commit then
          match pyIndex ch f.bic with
          | none => (st, some (.valueError f.bic))
          | some idx_bic =>
            if idx_commit ≥ idx_bic then
              if m.change_type = ChangeType.ADD then
                match lookupGroup st.labeling m.new_path with
                | none => (st, some (.keyError m.new_path))
                | some tg =>
                  match findRemoveIdx st.files tg f.filepath with
                  | none => (st, some (.valueError "list.remove"))
                  | some r =>
                    ({ st with labeling := setGroup st.labeling m.new_path (tg.eraseIdx r) },
                      none)
              else if m.change_type = ChangeType.RENAME then
                ({ st with files := st.files.setD i { f with filepath := m.old_path } },
                  none)
              else (st, none)
            else snapLoop ch chash m st rest
        else snapLoop ch chash m st rest

/-- Rename-handling phase of `label` for one commit: loop over its
modified files (lines 296-307). -/
def goMods (ch : List String) (chash : String) (st : LabelSt) :
    List Modification → LabelSt × Option PyErr
  | [] => (st, none)
  | m :: rest =>
    let snapshot := (lookupGroup st.labeling m.new_path).getD []
    match snapLoop ch chash m st snapshot with
    | (st', none) => goMods ch chash st' rest
    | err => err

/-- Process one visited commit of the labeling walk: emission phase, then
rename handling. -/
def processCommit (ch : List String) (c : Commit) (st : LabelSt) :
    LabelSt × Option PyErr :=
  match goKeys ch c.hash st (st.labeling.map Prod.fst) with
  | (st', none) => goMods ch c.hash st' c.modifications
  | err => err

/-- Drive the labeling walk over the traversal; an exception stops the
generator, keeping the values yielded so far. -/
def runCommits (ch : List String) (st : LabelSt) : List Commit → LabelResult
  | [] => ⟨st.out, none, st.files⟩
  | c :: rest =>
    match processCommit ch c st with
    | (st', none) => runCommits ch st' rest
    | (st', some e) => ⟨st'.out, some e, st'.files⟩

/-- The reversed walk of `label`: from the commit at index `ilast` (the
newest fixing commit) down to the first commit of the repository. -/
def labelTraversal (history : List Commit) (ilast : Nat) : List Commit :=
  (history.take (ilast + 1)).reverse

/-- RepositoryMiner.label (repository.py lines 254-307), run to
completion.  If `self.fixing_files` is empty the generator yields `None`
first (and then continues).  The walk goes from `self.fixing_commits[-1]`
back to `self.commit_hashes[0]`; accessing either on an empty list raises
`IndexError`.  Per commit: the emission phase yields a FAILURE_PRONE
LabeledFile for every tracked file whose window contains the commit and
removes a file from its group when the commit is its bug-inducing commit,
then the rename handling retargets or drops tracked files. -/
def label (history : List Commit) (fixing_commits : List String)
    (files0 : Array FixingFile) : LabelResult :=
  let ch := commitHashes history
  let pre : List (Option LabeledFile) := if files0.isEmpty then [none] else []
  let labeling := buildLabeling files0
  match fixing_commits.getLast? with
  | none => ⟨pre, some .indexError, files0⟩
  | some lastF =>
    match ch.head? with
    | none => ⟨pre, some .indexError, files0⟩
    | some _ =>
      match pyIndex ch lastF with
      | none => ⟨pre, some (.valueError lastF), files0⟩
      | some ilast =>
        runCommits ch ⟨files0, labeling, pre⟩ (labelTraversal history ilast)

/-- Python regex `\w`, for the ASCII characters the model uses. -/
def isWordChar (c : Char) : Bool :=
  ('a' ≤ c && c ≤ 'z') || ('A' ≤ c && c ≤ 'Z') || ('0' ≤ c && c ≤ '9') || c == '_'

/-- Python `str.lower` per character (ASCII). -/
def lcChar (c : Char) : Char :=
  if 'A' ≤ c ∧ c ≤ 'Z' then Char.ofNat (c.toNat + 32) else c

/-- Case-insensitive test for the literal alternation `(bug|fix)`. -/
def isBugOrFix (x y z : Char) : Bool :=
  (lcChar x == 'b' && lcChar y == 'u' && lcChar z == 'g') ||
  (lcChar x == 'f' && lcChar y == 'i' && lcChar z == 'x')

/-- One repetition of the pattern `\w+(bug|fix)\w` matches at the start of
`cs` consuming `j + 4` characters: at least one word character, then
`bug` or `fix` starting at position `j`, then one word character. -/
def validRepAt (cs : List Char) (j : Nat) : Bool :=
  decide (1 ≤ j) && (cs.take j).all isWordChar &&
    (match cs.get? j, cs.get? (j + 1), cs.get? (j + 2), cs.get? (j + 3) with
     | some x, some y, some z, some w => isBugOrFix x y z && isWordChar w
     | _, _, _, _ => false)

/-- The greedy repetition: the Python engine backtracks `\w+` from the
longest extent, so the first success places `(bug|fix)` as late as
possible.  `bestRep` is the largest valid `j`, or `none`. -/
def bestRep (cs : List Char) : Option Nat :=
  (List.range (cs.length + 1)).foldl
    (fun acc j => if validRepAt cs j then some j else acc) none

theorem bestRep_foldl_valid (l : List Nat) (cs : List Char) (acc : Option Nat)
    (hacc : ∀ j, acc = some j → validRepAt cs j = true) :
    ∀ j, l.foldl (fun a j => if validRepAt cs j then some j else a) acc = some j →
      validRepAt cs j = true := by
  induction l generalizing acc with
  | nil => exact hacc
  | cons x t ih =>
    intro j hj
    refine ih _ ?_ j hj
    intro j' hj'
    dsimp only at hj'
    by_cases hx : validRepAt cs x = true
    · rw [if_pos hx] at hj'
      cases hj'
      exact hx
    · rw [if_neg hx] at hj'
      exact hacc j' hj'

theorem bestRep_valid (cs : List Char) (j : Nat) (h : bestRep cs = some j) :
    validRepAt cs j = true :=
  bestRep_foldl_valid _ cs none (by intro j h; cases h) j h

theorem validRepAt_le (cs : List Char) (j : Nat) (h : validRepAt cs j = true) :
    j + 4 ≤ cs.length := by
  unfold validRepAt at h
  rcases Bool.and_eq_true_iff.mp h with ⟨-, hm⟩
  cases hx : cs.get? j <;> rw [hx] at hm
  · cases hy : cs.get? (j + 1) <;> rw [hy] at hm <;> simp at hm
  · cases hy : cs.get? (j + 1) <;> rw [hy] at hm
    · simp at hm
    · cases hz : cs.get? (j + 2) <;> rw [hz] at hm
      · simp at hm
      · cases hw : cs.get? (j + 3) <;> rw [hw] at hm
        · simp at hm
        · obtain ⟨hlt, -⟩ := List.get?_eq_some.mp hw
          omega

/-- Length of the (possibly empty) leading match of the compiled pattern
`(\w+(bug|fix)\w)*` with IGNORECASE: greedy repetitions taken until no
repetition matches.  A zero-length match is still a truthy match object
in Python, with `group()` equal to the empty string. -/
def leadingRunLen (cs : List Char) : Nat :=
  match hb : bestRep cs with
  | none => 0
  | some j => j + 4 + leadingRunLen (cs.drop (j + 4))
termination_by cs.length
decreasing_by
  simp only [List.length_drop]
  have := validRepAt_le cs j (bestRep_valid cs j hb)
  omega

/-- Python `re.sub(pat, '', s)` for a literal pattern (the stripped run is
made of word characters only, so it has no regex metacharacters):
delete the leftmost non-overlapping occurrences, scanning left to right.
The match of `group()` against the message is case sensitive, since the
new pattern is compiled without flags. -/
def removeAll (pat : List Char) : List Char → List Char
  | [] => []
  | c :: t =>
    if pat.isPrefixOf (c :: t) ∧ pat ≠ [] then
      removeAll pat (t.drop (pat.length - 1))
    else c :: removeAll pat t
termination_by s => s.length
decreasing_by
  · simp only [List.length_drop, List.length_cons]; omega
  · simp only [List.length_cons]; omega

/-- Position of the leftmost occurrence of `pat` in `s` that `removeAll`
deletes (same guard as `removeAll`): used to reason about which part of
the message the substitution can touch. -/
def firstOcc (pat : List Char) : List Char → Option Nat
  | [] => none
  | c :: t =>
    if pat.isPrefixOf (c :: t) ∧ pat ≠ [] then some 0
    else (firstOcc pat t).map (· + 1)

/-- The cleaning step of get_fixing_commits_from_commit_messages (lines
155-160): match `(\w+(bug|fix)\w)*` at the start of the message (always a
truthy match), then `re.sub` the matched text out of the message.  When
the match is empty the substitution leaves the message unchanged. -/
def pyCleanMsg (msg : List Char) : List Char :=
  let n := leadingRunLen msg
  if n = 0 then msg else removeAll (msg.take n) msg

/-- The word alternatives of the default fixing-commit regex
`(bug|fix|error|crash|problem|fail|defect|patch)`. -/
def defaultFixWords : List (List Char) :=
  ["bug".toList, "fix".toList, "error".toList, "crash".toList,
   "problem".toList, "fail".toList, "defect".toList, "patch".toList]

/-- Python `re.match` of the default regex at the start of an already
lowercased string: some alternative is a leading literal. -/
def matchDefaultRegex (s : List Char) : Bool :=
  defaultFixWords.any (fun w => w.isPrefixOf s)

/-- Full message test of get_fixing_commits_from_commit_messages: clean
the message, lowercase it, and apply the regex matcher (`rtest` models
`re.match(regex, ·)`; the default regex is `matchDefaultRegex`). -/
def msgTest (rtest : List Char → Bool) (msg : List Char) : Bool :=
  rtest ((pyCleanMsg msg).map lcChar)

/-- RepositoryMiner.discard_non_iac_fixing_commits (lines 58-73): sort
the candidate list, then walk the commits between the oldest and newest
candidate and drop every candidate commit that modifies no relevant
file. -/
def discard_non_iac_fixing_commits (history : List Commit)
    (isRelevant : Path → Bool) (commits : List String) :
    Except PyErr (List String) :=
  let ch := commitHashes history
  let cs := sort_commits ch commits
  match cs.head?, cs.getLast? with
  | some firstC, some lastC =>
    match pyIndexE ch firstC with
    | .error e => .error e
    | .ok i0 =>
      match pyIndexE ch lastC with
      | .error e => .error e
      | .ok i1 =>
        let seg := (history.drop i0).take (i1 + 1 - i0)
        .ok (seg.foldl (fun acc c =>
          if c.modifications.any (fun m => isRelevant m.new_path) then acc
          else if acc.contains c.hash then acc.erase c.hash else acc) cs)
  | _, _ => .error .indexError

/-- RepositoryMiner.get_fixing_commits_from_commit_messages (lines
141-176): collect the commits whose cleaned message matches the regex,
then (if any) discard the ones touching no relevant file, extend
`self.fixing_commits` and sort it.  Returns the post value of
`self.fixing_commits` and the returned list `fixes_from_message`. -/
def get_fixing_commits_from_commit_messages (history : List Commit)
    (isRelevant : Path → Bool) (rtest : List Char → Bool)
    (fixing_commits : List String) : Except PyErr (List String × List String) :=
  let ch := commitHashes history
  let fixes_from_message :=
    (history.filter (fun c => msgTest rtest c.msg)).map (·.hash)
  if fixes_from_message.isEmpty then .ok (fixing_commits, fixes_from_message)
  else
    match discard_non_iac_fixing_commits history isRelevant fixes_from_message with
    | .error e => .error e
    | .ok fixes' => .ok (sort_commits ch (fixing_commits ++ fixes'), fixes')

/-- RepositoryMiner.get_fixing_commits_from_closed_issues (lines
105-139).  The GitHub queries (labels, closed issues, issue events) are
an external network collaborator; `fixes_from_issues` models the commit
ids collected from the closing and merging events of the matching closed
issues, identical across calls against an unchanged tracker. -/
def get_fixing_commits_from_closed_issues (history : List Commit)
    (isRelevant : Path → Bool) (fixes_from_issues : List String)
    (fixing_commits : List String) : Except PyErr (List String × List String) :=
  if fixes_from_issues.isEmpty then .ok (fixing_commits, fixes_from_issues)
  else
    match discard_non_iac_fixing_commits history isRelevant fixes_from_issues with
    | .error e => .error e
    | .ok fixes' =>
      .ok (sort_commits (commitHashes history) (fixing_commits ++ fixes'), fixes')

/-- RepositoryMiner.mine (lines 309-333): issue-based fix finding,
message-based fix finding, fixing-file extraction, then the labeling
walk.  The state is the pair (`self.fixing_commits`, `self.fixing_files`)
carried across calls on the same miner instance; the result pairs the run
of the `label` generator with the post state. -/
def mine (history : List Commit) (isRelevant : Path → Bool)
    (rtest : List Char → Bool) (fixes_from_issues : List String)
    (st : List String × List FixingFile) :
    Except PyErr (LabelResult × (List String × List FixingFile)) :=
  match get_fixing_commits_from_closed_issues history isRelevant fixes_from_issues st.1 with
  | .error e => .error e
  | .ok (fc1, _) =>
    match get_fixing_commits_from_commit_messages history isRelevant rtest fc1 with
    | .error e => .error e
    | .ok (fc2, _) =>
      match get_fixing_files history isRelevant fc2 st.2 with
      | .error e => .error e
      | .ok (fc3, ff1) =>
        let res := label history fc3 ff1.toArray
        .ok (res, (fc3, res.files.toList))

/-- The emission the half-open-window claim predicts for the entry `e` at
a visited commit `c` (given the index positions of `e.fic` and `e.bic`):
a FAILURE_PRONE LabeledFile exactly when `idxFic > idxC >= idxBic`. -/
def windowYield (ch : List String) (e : FixingFile) (ific ibic : Nat) (c : Commit) :
    Option (Option LabeledFile) :=
  match pyIndex ch c.hash with
  | some k =>
    if ific > k ∧ k ≥ ibic then
      some (some ⟨e.filepath, c.hash, FPLabel.FAILURE_PRONE, e.fic⟩)
    else none
  | none => none

/-- Agreement of two FixingFile stores on the bic and fic fields (and
size): what survives of the freezing claim once the in-place filepath
mutation is accounted for. -/
def bicFicEq (a b : Array FixingFile) : Prop :=
  a.size = b.size ∧ ∀ i, (a.getD i default).bic = (b.getD i default).bic ∧
    (a.getD i default).fic = (b.getD i default).fic

/-- Scenario for the C1 witness: a four-commit linear history with no
modified files recorded, one fixing file with bic = h1 and fic = h3. -/
def histC1w : List Commit :=
  [⟨"h0", [], []⟩, ⟨"h1", [], []⟩, ⟨"h2", [], []⟩, ⟨"h3", [], []⟩]

/-- Scenario for the C6 witness: h1 fixes the file `a` whose changed
lines were last touched by h0. -/
def histC6w : List Commit :=
  [⟨"h0", [], []⟩,
   ⟨"h1", [], [⟨some "a", some "a", ChangeType.MODIFY, ["h0"]⟩]⟩]

/-- Scenario for the C7 witness: the raw message of h0 starts with
`bug`, but its cleaned remainder does not match the default regex. -/
def histC7w : List Commit :=
  [⟨"h0", "bugfix2 applied".toList, []⟩, ⟨"h1", "Fix crash".toList, []⟩]

/-- Scenario for C3: a one-commit repository. -/
def histC3 : List Commit := [⟨"h0", [], []⟩]

/-- Scenario for the C1 counterexample: the tracked file is added (under
its tracked path) at commit h2, strictly inside the window of the entry
(bic = h1, fic = h3). -/
def histC1 : List Commit :=
  [⟨"h0", [], []⟩, ⟨"h1", [], []⟩,
   ⟨"h2", [], [⟨none, some "p", ChangeType.ADD, []⟩]⟩, ⟨"h3", [], []⟩]

/-- Scenario for the C4 counterexample: the first tracked file is renamed
from old to new at h3, inside its window (bic = h1, fic = h4); a second
fixing file lives at the old path, so that the bic-removal at h1 finds
the key `old` and the walk completes without an exception. -/
def histC4 : List Commit :=
  [⟨"h0", [], []⟩, ⟨"h1", [], []⟩, ⟨"h2", [], []⟩,
   ⟨"h3", [], [⟨some "old", some "new", ChangeType.RENAME, []⟩]⟩, ⟨"h4", [], []⟩]

/-- The fixing files of the C4 counterexample, as get_fixing_files left
them. -/
def filesC4 : Array FixingFile :=
  #[⟨some "new", "h1", "h4"⟩, ⟨some "old", "h0", "h1"⟩]

/-- Scenario for C5: a single tracked file renamed from old to new at h3,
with bic = h1 and fic = h4, so that index(bic) < index(h3) < index(fic). -/
def histC5 : List Commit :=
  [⟨"h0", [], []⟩, ⟨"h1", [], []⟩, ⟨"h2", [], []⟩,
   ⟨"h3", [], [⟨some "old", some "new", ChangeType.RENAME, []⟩]⟩, ⟨"h4", [], []⟩]

/-- Scenario for the C9 witness: one commit, one relevant MODIFY with an
empty blame result, the fixing commit supplied by the issue tracker. -/
def histC9w : List Commit :=
  [⟨"h0", [], [⟨some "a", some "a", ChangeType.MODIFY, []⟩]⟩]

/-- All FixingFile indices stored anywhere in the labeling dict are below
`B` (the size of the files store). -/
def labBound (B : Nat) (lab : List (Path × List Nat)) : Prop :=
  ∀ pg ∈ lab, ∀ i ∈ pg.2, i < B

/-- The property the window claim asserts of an emitted LabeledFile: it
was emitted inside the half-open window of a tracked entry whose fic it
carries, with bic and fic read off the FixingFile array as
get_fixing_files produced it: index(fic) > index(commit) >= index(bic). -/
def inWindowOf (ch : List String) (files0 : Array FixingFile) (lf : LabeledFile) : Prop :=
  ∃ k ific ic ibic, k < files0.size ∧
    (files0.getD k default).fic = lf.fixing_commit ∧
    pyIndex ch lf.fixing_commit = some ific ∧
    pyIndex ch lf.commit = some ic ∧
    pyIndex ch (files0.getD k default).bic = some ibic ∧
    ibic ≤ ic ∧ ic < ific

/-! Basic lemmas about the helper functions. -/

theorem pyFindIdx_lt (l : List FixingFile) (f : FixingFile) (idx : Nat)
    (h : pyFindIdx l f = some idx) : idx < l.length := by
  induction l generalizing idx with
  | nil => simp [pyFindIdx] at h
  | cons a t ih =>
    unfold pyFindIdx at h
    by_cases ha : a.filepath = f.filepath
    · rw [if_pos ha] at h
      cases h
      simp
    · rw [if_neg ha] at h
      cases ht : pyFindIdx t f <;> rw [ht] at h
      · simp at h
      · simp only [Option.map_some'] at h
        cases h
        have := ih _ ht
        simp
        omega

theorem pyFindIdx_get (l : List FixingFile) (f : FixingFile) (idx : Nat)
    (h : pyFindIdx l f = some idx) :
    ∃ g, l.get? idx = some g ∧ g.filepath = f.filepath := by
  induction l generalizing idx with
  | nil => simp [pyFindIdx] at h
  | cons a t ih =>
    unfold pyFindIdx at h
    by_cases ha : a.filepath = f.filepath
    · rw [if_pos ha] at h
      cases h
      exact ⟨a, rfl, ha⟩
    · rw [if_neg ha] at h
      cases ht : pyFindIdx t f <;> rw [ht] at h
      · simp at h
      · simp only [Option.map_some'] at h
        cases h
        simpa using ih _ ht

theorem pyFindIdx_first (l : List FixingFile) (f : FixingFile) (idx : Nat)
    (h : pyFindIdx l f = some idx) :
    ∀ j g, j < idx → l.get? j = some g → g.filepath ≠ f.filepath := by
  induction l generalizing idx with
  | nil => simp [pyFindIdx] at h
  | cons a t ih =>
    unfold pyFindIdx at h
    by_cases ha : a.filepath = f.filepath
    · rw [if_pos ha] at h
      cases h
      intro j g hj
      omega
    · rw [if_neg ha] at h
      cases ht : pyFindIdx t f <;> rw [ht] at h
      · simp at h
      · simp only [Option.map_some'] at h
        cases h
        intro j g hj hg
        cases j with
        | zero =>
          cases hg
          exact ha
        | succ j' =>
          exact ih _ ht j' g (by omega) (by simpa using hg)

theorem foldl_addToLabeling_shape (l : List Nat) (f : Nat → Path)
    (k0 : Path) (x : Nat) (s : List Nat) (restG : List (Path × List Nat)) :
    ∃ s' restG',
      l.foldl (fun lab i => addToLabeling lab (f i) i) ((k0, x :: s) :: restG) =
        (k0, x :: s') :: restG' := by
  induction l generalizing s restG with
  | nil => exact ⟨s, restG, rfl⟩
  | cons a t ih =>
    simp only [List.foldl_cons]
    by_cases hk : k0 = f a
    · have hstep : addToLabeling ((k0, x :: s) :: restG) (f a) a =
          (k0, x :: (s ++ [a])) :: restG := by
        unfold addToLabeling
        rw [if_pos hk]
        rfl
      rw [hstep]
      exact ih _ _
    · have hstep : addToLabeling ((k0, x :: s) :: restG) (f a) a =
          (k0, x :: s) :: addToLabeling restG (f a) a := by
        simp only [addToLabeling]
        rw [if_neg hk]
      rw [hstep]
      exact ih _ _

theorem buildLabeling_head (files : Array FixingFile) (h : files.size ≠ 0) :
    ∃ s restG,
      buildLabeling files = ((files.getD 0 default).filepath, 0 :: s) :: restG := by
  unfold buildLabeling
  obtain ⟨m, hm⟩ : ∃ m, files.size = m + 1 := ⟨files.size - 1, by omega⟩
  rw [hm, List.range_succ_eq_map, List.foldl_cons]
  exact foldl_addToLabeling_shape _ (fun i => (files.getD i default).filepath) _ 0 [] []

theorem processCommit_first_fic_missing (ch : List String) (c : Commit)
    (files0 : Array FixingFile) (fp0 : Path) (s : List Nat)
    (restG : List (Path × List Nat)) (out : List (Option LabeledFile))
    (hfic : pyIndex ch (files0.getD 0 default).fic = none) :
    processCommit ch c ⟨files0, (fp0, 0 :: s) :: restG, out⟩ =
      (⟨files0, (fp0, 0 :: s) :: restG, out⟩,
        some (.valueError (files0.getD 0 default).fic)) := by
  have hg : lookupGroup ((fp0, 0 :: s) :: restG) fp0 = some (0 :: s) := by
    unfold lookupGroup
    rw [if_pos rfl]
  unfold processCommit
  dsimp only [List.map_cons]
  unfold goKeys
  dsimp only
  rw [hg]
  dsimp only [Option.getD_some, List.length_cons]
  unfold groupLoop
  dsimp only
  rw [hg]
  dsimp only [Option.getD_some, List.get]
  rw [dif_pos (show 0 < (0 :: s).length by simp)]
  rw [hfic]

theorem processCommit_first_bic_missing (ch : List String) (c : Commit)
    (files0 : Array FixingFile) (fp0 : Path) (s : List Nat)
    (restG : List (Path × List Nat)) (out : List (Option LabeledFile)) (ific : Nat)
    (hfic : pyIndex ch (files0.getD 0 default).fic = some ific)
    (hbic : pyIndex ch (files0.getD 0 default).bic = none) :
    processCommit ch c ⟨files0, (fp0, 0 :: s) :: restG, out⟩ =
      (⟨files0, (fp0, 0 :: s) :: restG, out⟩,
        some (.valueError (files0.getD 0 default).bic)) := by
  have hg : lookupGroup ((fp0, 0 :: s) :: restG) fp0 = some (0 :: s) := by
    unfold lookupGroup
    rw [if_pos rfl]
  unfold processCommit
  dsimp only [List.map_cons]
  unfold goKeys
  dsimp only
  rw [hg]
  dsimp only [Option.getD_some, List.length_cons]
  unfold groupLoop
  dsimp only
  rw [hg]
  dsimp only [Option.getD_some, List.get]
  rw [dif_pos (show 0 < (0 :: s).length by simp)]
  rw [hfic, hbic]

theorem label_first_entry_err (history : List Commit) (fixing_commits : List String)
    (files0 : Array FixingFile) (lastF : String) (ilast : Nat) (e : PyErr)
    (hne : files0.size ≠ 0)
    (hlast : fixing_commits.getLast? = some lastF)
    (hil : pyIndex (commitHashes history) lastF = some ilast)
    (hstep : ∀ c fp0 s restG out,
      processCommit (commitHashes history) c ⟨files0, (fp0, 0 :: s) :: restG, out⟩ =
        (⟨files0, (fp0, 0 :: s) :: restG, out⟩, some e)) :
    label history fixing_commits files0 = ⟨[], some e, files0⟩ := by
  obtain ⟨s, restG, hlab⟩ := buildLabeling_head files0 hne
  have hpre : files0.isEmpty = false := by
    unfold Array.isEmpty
    simp [hne]
  cases history with
  | nil => simp [commitHashes, pyIndex] at hil
  | cons h0 ht =>
    cases htrav : labelTraversal (h0 :: ht) ilast with
    | nil =>
      unfold labelTraversal at htrav
      rw [List.take_succ_cons] at htrav
      simp at htrav
    | cons c rest =>
      unfold label
      rw [hlast]
      dsimp only
      rw [show (commitHashes (h0 :: ht)).head? = some h0.hash from rfl]
      dsimp only
      rw [hil]
      dsimp only
      simp only [hpre, Bool.false_eq_true, if_false]
      rw [hlab, htrav]
      unfold runCommits
      rw [hstep c _ s restG []]

theorem processCommit_singleton_skip (ch : List String) (c : Commit) (e : FixingFile)
    (out : List (Option LabeledFile)) (ific ibic kc : Nat)
    (hm : c.modifications = [])
    (hfic : pyIndex ch e.fic = some ific)
    (hbic : pyIndex ch e.bic = some ibic)
    (hkc : pyIndex ch c.hash = some kc)
    (hw : ¬(ific > kc ∧ kc ≥ ibic)) :
    processCommit ch c ⟨#[e], [(e.filepath, [0])], out⟩ =
      (⟨#[e], [(e.filepath, [0])], out⟩, none) := by
  simp [processCommit, goKeys, groupLoop, goMods, lookupGroup, hfic, hbic, hkc, hm, hw]

theorem processCommit_singleton_emit (ch : List String) (c : Commit) (e : FixingFile)
    (out : List (Option LabeledFile)) (ific ibic kc : Nat)
    (hm : c.modifications = [])
    (hfic : pyIndex ch e.fic = some ific)
    (hbic : pyIndex ch e.bic = some ibic)
    (hkc : pyIndex ch c.hash = some kc)
    (hw : ific > kc ∧ kc ≥ ibic) (hne : kc ≠ ibic) :
    processCommit ch c ⟨#[e], [(e.filepath, [0])], out⟩ =
      (⟨#[e], [(e.filepath, [0])],
        out ++ [some ⟨e.filepath, c.hash, .FAILURE_PRONE, e.fic⟩]⟩, none) := by
  simp [processCommit, goKeys, groupLoop, goMods, lookupGroup, hfic, hbic, hkc, hm, hw, hne]

theorem processCommit_singleton_remove (ch : List String) (c : Commit) (e : FixingFile)
    (out : List (Option LabeledFile)) (ific ibic : Nat)
    (hm : c.modifications = [])
    (hfic : pyIndex ch e.fic = some ific)
    (hbic : pyIndex ch e.bic = some ibic)
    (hkc : pyIndex ch c.hash = some ibic)
    (hw : ific > ibic) :
    processCommit ch c ⟨#[e], [(e.filepath, [0])], out⟩ =
      (⟨#[e], [(e.filepath, [])],
        out ++ [some ⟨e.filepath, c.hash, .FAILURE_PRONE, e.fic⟩]⟩, none) := by
  simp [processCommit, goKeys, groupLoop, goMods, lookupGroup, setGroup, findRemoveIdx,
    hfic, hbic, hkc, hm, hw]

theorem processCommit_empty_group (ch : List String) (c : Commit) (fp : Path)
    (files : Array FixingFile) (out : List (Option LabeledFile))
    (hm : c.modifications = []) :
    processCommit ch c ⟨files, [(fp, [])], out⟩ = (⟨files, [(fp, [])], out⟩, none) := by
  simp [processCommit, goKeys, groupLoop, goMods, lookupGroup, hm]

theorem runCommits_empty_group (ch : List String) (fp : Path)
    (files : Array FixingFile) (out : List (Option LabeledFile)) (cs : List Commit)
    (hmods : ∀ c ∈ cs, c.modifications = []) :
    runCommits ch ⟨files, [(fp, [])], out⟩ cs = ⟨out, none, files⟩ := by
  induction cs with
  | nil => rfl
  | cons c rest ih =>
    unfold runCommits
    rw [processCommit_empty_group ch c fp files out (hmods c (by simp))]
    exact ih (fun c' hc' => hmods c' (by simp [hc']))

theorem runCommits_singleton_window (ch : List String) (e : FixingFile)
    (cs : List Commit) (out : List (Option LabeledFile)) (ific ibic : Nat)
    (hfic : pyIndex ch e.fic = some ific)
    (hbic : pyIndex ch e.bic = some ibic)
    (hmods : ∀ c ∈ cs, c.modifications = [])
    (hidx : ∀ c ∈ cs, ∃ k, pyIndex ch c.hash = some k)
    (hdesc : cs.Pairwise (fun a b => ∀ ka kb, pyIndex ch a.hash = some ka →
      pyIndex ch b.hash = some kb → kb < ka)) :
    runCommits ch ⟨#[e], [(e.filepath, [0])], out⟩ cs =
      ⟨out ++ cs.filterMap (windowYield ch e ific ibic), none, #[e]⟩ := by
  induction cs generalizing out with
  | nil => simp [runCommits]
  | cons c rest ih =>
    obtain ⟨kc, hkc⟩ := hidx c (by simp)
    have hm := hmods c (by simp)
    have hrestm : ∀ c' ∈ rest, c'.modifications = [] :=
      fun c' hc' => hmods c' (by simp [hc'])
    have hresti : ∀ c' ∈ rest, ∃ k, pyIndex ch c'.hash = some k :=
      fun c' hc' => hidx c' (by simp [hc'])
    have hheadd := (List.pairwise_cons.mp hdesc).1
    have hrestd := (List.pairwise_cons.mp hdesc).2
    by_cases hw : ific > kc ∧ kc ≥ ibic
    · by_cases hkb : kc = ibic
      · subst hkb
        unfold runCommits
        rw [processCommit_singleton_remove ch c e out ific kc hm hfic hbic hkc hw.1]
        dsimp only
        rw [runCommits_empty_group ch e.filepath #[e] _ rest hrestm]
        have hrest0 : rest.filterMap (windowYield ch e ific kc) = [] := by
          rw [List.filterMap_eq_nil]
          intro c' hc'
          obtain ⟨k', hk'⟩ := hresti c' hc'
          have hlt := hheadd c' hc' kc k' hkc hk'
          simp only [windowYield, hk']
          rw [if_neg (by omega)]
        simp [List.filterMap_cons, windowYield, hkc, hw, hrest0]
      · unfold runCommits
        rw [processCommit_singleton_emit ch c e out ific ibic kc hm hfic hbic hkc hw hkb]
        dsimp only
        rw [ih _ hrestm hresti hrestd]
        simp [List.filterMap_cons, windowYield, hkc, hw]
    · unfold runCommits
      rw [processCommit_singleton_skip ch c e out ific ibic kc hm hfic hbic hkc hw]
      dsimp only
      rw [ih _ hrestm hresti hrestd]
      simp [List.filterMap_cons, windowYield, hkc, hw]

theorem label_run (history : List Commit) (fixing_commits : List String)
    (files0 : Array FixingFile) (lastF : String) (ilast : Nat)
    (hne : files0.size ≠ 0)
    (hlast : fixing_commits.getLast? = some lastF)
    (hil : pyIndex (commitHashes history) lastF = some ilast) :
    label history fixing_commits files0 =
      runCommits (commitHashes history) ⟨files0, buildLabeling files0, []⟩
        (labelTraversal history ilast) := by
  have hpre : files0.isEmpty = false := by
    unfold Array.isEmpty
    simp [hne]
  cases history with
  | nil => simp [commitHashes, pyIndex] at hil
  | cons h0 ht =>
    unfold label
    rw [hlast]
    dsimp only
    rw [show (commitHashes (h0 :: ht)).head? = some h0.hash from rfl]
    dsimp only
    rw [hil]
    dsimp only
    simp only [hpre, Bool.false_eq_true, if_false]

theorem pyIndex_of_nodup (l : List String) (hnd : l.Nodup) (k : Nat) (x : String)
    (hx : l.get? k = some x) : pyIndex l x = some k := by
  induction l generalizing k with
  | nil => simp at hx
  | cons h t ih =>
    cases k with
    | zero =>
      cases hx
      unfold pyIndex
      rw [if_pos rfl]
    | succ k' =>
      simp only [List.get?_cons_succ] at hx
      have hmem : x ∈ t := List.get?_mem hx
      have hne : h ≠ x := by
        intro he
        exact (List.nodup_cons.mp hnd).1 (he ▸ hmem)
      unfold pyIndex
      rw [if_neg hne, ih (List.nodup_cons.mp hnd).2 k' hx]
      rfl

theorem history_get_pyIndex (history : List Commit)
    (hnodup : (commitHashes history).Nodup) (k : Nat) (c : Commit)
    (hk : history.get? k = some c) :
    pyIndex (commitHashes history) c.hash = some k := by
  apply pyIndex_of_nodup _ hnodup
  unfold commitHashes
  rw [List.get?_map, hk]
  rfl

theorem labelTraversal_mem (history : List Commit) (ilast : Nat) (c : Commit)
    (hc : c ∈ labelTraversal history ilast) : c ∈ history := by
  unfold labelTraversal at hc
  rw [List.mem_reverse] at hc
  exact List.take_subset _ _ hc

theorem labelTraversal_indexed (history : List Commit) (ilast : Nat)
    (hnodup : (commitHashes history).Nodup) :
    ∀ c ∈ labelTraversal history ilast,
      ∃ k, pyIndex (commitHashes history) c.hash = some k := by
  intro c hc
  obtain ⟨k, hk⟩ := List.get?_of_mem (labelTraversal_mem history ilast c hc)
  exact ⟨k, history_get_pyIndex history hnodup k c hk⟩

theorem labelTraversal_desc (history : List Commit) (ilast : Nat)
    (hnodup : (commitHashes history).Nodup) :
    (labelTraversal history ilast).Pairwise (fun a b => ∀ ka kb,
      pyIndex (commitHashes history) a.hash = some ka →
      pyIndex (commitHashes history) b.hash = some kb → kb < ka) := by
  unfold labelTraversal
  rw [List.pairwise_reverse]
  apply List.Pairwise.sublist (List.take_sublist _ _)
  rw [List.pairwise_iff_get]
  intro i j hij
  intro ka kb hka hkb
  have hia := history_get_pyIndex history hnodup i (history.get i)
    (by rw [List.get?_eq_get i.isLt])
  have hjb := history_get_pyIndex history hnodup j (history.get j)
    (by rw [List.get?_eq_get j.isLt])
  rw [hia] at hkb
  rw [hjb] at hka
  cases hka
  cases hkb
  exact hij

theorem bicFicEq_refl (a : Array FixingFile) : bicFicEq a a :=
  ⟨rfl, fun _ => ⟨rfl, rfl⟩⟩

theorem bicFicEq_trans {a b c : Array FixingFile}
    (h1 : bicFicEq a b) (h2 : bicFicEq b c) : bicFicEq a c :=
  ⟨h1.1.trans h2.1, fun i =>
    ⟨(h1.2 i).1.trans (h2.2 i).1, (h1.2 i).2.trans (h2.2 i).2⟩⟩

theorem bicFicEq_setD (files : Array FixingFile) (i : Nat) (p : Path) :
    bicFicEq (files.setD i { files.getD i default with filepath := p }) files := by
  unfold Array.setD
  by_cases hlt : i < files.size
  · rw [dif_pos hlt]
    refine ⟨Array.size_set files ⟨i, hlt⟩ _, fun j => ?_⟩
    unfold Array.getD
    by_cases hj : j < files.size
    · rw [dif_pos (by simpa using hj), dif_pos hj]
      simp only [Array.get_eq_getElem]
      rw [Array.get_set files ⟨i, hlt⟩ j (by simpa using hj)]
      by_cases hij : i = j
      · subst hij
        rw [if_pos rfl]
        simp [dif_pos hlt]
      · rw [if_neg hij]
        exact ⟨rfl, rfl⟩
    · rw [dif_neg (by simpa using hj), dif_neg hj]
      exact ⟨rfl, rfl⟩
  · rw [dif_neg hlt]
    exact bicFicEq_refl files

theorem snapLoop_bicFic (ch : List String) (chash : String) (m : Modification)
    (st : LabelSt) (snap : List Nat) :
    bicFicEq (snapLoop ch chash m st snap).1.files st.files := by
  induction snap generalizing st with
  | nil => exact bicFicEq_refl _
  | cons i rest ih =>
    unfold snapLoop
    dsimp only
    repeat first
      | exact bicFicEq_refl _
      | exact bicFicEq_setD st.files i _
      | exact ih st
      | split

theorem goMods_bicFic (ch : List String) (chash : String) (st : LabelSt)
    (mods : List Modification) :
    bicFicEq (goMods ch chash st mods).1.files st.files := by
  induction mods generalizing st with
  | nil => exact bicFicEq_refl _
  | cons m rest ih =>
    unfold goMods
    dsimp only
    have hsnap := snapLoop_bicFic ch chash m st
      ((lookupGroup st.labeling m.new_path).getD [])
    split
    · next st' heq =>
      rw [heq] at hsnap
      exact bicFicEq_trans (ih st') hsnap
    · exact hsnap

theorem groupLoop_files_eq (ch : List String) (chash : String) (k : Path)
    (fuel j : Nat) (st : LabelSt) :
    (groupLoop ch chash k fuel j st).1.files = st.files := by
  induction fuel generalizing j st with
  | zero => rfl
  | succ fuel ih =>
    unfold groupLoop
    dsimp only
    repeat first
      | rfl
      | exact ih _ _
      | split

theorem goKeys_files_eq (ch : List String) (chash : String) (st : LabelSt)
    (keys : List Path) :
    (goKeys ch chash st keys).1.files = st.files := by
  induction keys generalizing st with
  | nil => rfl
  | cons k rest ih =>
    unfold goKeys
    dsimp only
    have hgl := groupLoop_files_eq ch chash k
      (((lookupGroup st.labeling k).getD []).length + 1) 0 st
    split
    · next st' heq =>
      rw [heq] at hgl
      exact (ih st').trans hgl
    · exact hgl

theorem processCommit_bicFic (ch : List String) (c : Commit) (st : LabelSt) :
    bicFicEq (processCommit ch c st).1.files st.files := by
  unfold processCommit
  have hgk := goKeys_files_eq ch c.hash st (st.labeling.map Prod.fst)
  split
  · next st' heq =>
    rw [heq] at hgk
    have h2 := goMods_bicFic ch c.hash st' c.modifications
    rw [hgk] at h2
    exact h2
  · rw [hgk]
    exact bicFicEq_refl _

theorem runCommits_bicFic (ch : List String) (st : LabelSt) (cs : List Commit) :
    bicFicEq (runCommits ch st cs).files st.files := by
  induction cs generalizing st with
  | nil => exact bicFicEq_refl _
  | cons c rest ih =>
    unfold runCommits
    have hpc := processCommit_bicFic ch c st
    split
    · next st' heq =>
      rw [heq] at hpc
      exact bicFicEq_trans (ih st') hpc
    · next st' e heq =>
      rw [heq] at hpc
      exact hpc

theorem bicFicEq_symm {a b : Array FixingFile} (h : bicFicEq a b) : bicFicEq b a :=
  ⟨h.1.symm, fun i => ⟨(h.2 i).1.symm, (h.2 i).2.symm⟩⟩

theorem lookupGroup_mem (lab : List (Path × List Nat)) (p : Path) (g : List Nat)
    (h : lookupGroup lab p = some g) : (p, g) ∈ lab := by
  induction lab with
  | nil => cases h
  | cons hd t ih =>
    obtain ⟨k', g'⟩ := hd
    unfold lookupGroup at h
    split at h
    · next he =>
      cases h
      subst he
      exact List.mem_cons_self _ _
    · exact List.mem_cons_of_mem _ (ih h)

theorem labBound_lookup (B : Nat) (lab : List (Path × List Nat)) (hB : labBound B lab)
    (p : Path) (g : List Nat) (h : lookupGroup lab p = some g) : ∀ i ∈ g, i < B :=
  hB (p, g) (lookupGroup_mem lab p g h)

theorem labBound_addTo (B : Nat) (lab : List (Path × List Nat)) (p : Path) (i : Nat)
    (hB : labBound B lab) (hi : i < B) : labBound B (addToLabeling lab p i) := by
  induction lab with
  | nil =>
    intro pg hpg j hj
    simp only [addToLabeling, List.mem_singleton] at hpg
    subst hpg
    simp only [List.mem_singleton] at hj
    subst hj
    exact hi
  | cons hd t ih =>
    obtain ⟨k, g⟩ := hd
    intro pg hpg j hj
    unfold addToLabeling at hpg
    split at hpg
    · rcases List.mem_cons.mp hpg with he | hm
      · subst he
        rcases List.mem_append.mp hj with hjg | hji
        · exact hB (k, g) (List.mem_cons_self _ _) j hjg
        · simp only [List.mem_singleton] at hji
          subst hji
          exact hi
      · exact hB pg (List.mem_cons_of_mem _ hm) j hj
    · rcases List.mem_cons.mp hpg with he | hm
      · subst he
        exact hB (k, g) (List.mem_cons_self _ _) j hj
      · exact ih (fun pg2 h2 => hB pg2 (List.mem_cons_of_mem _ h2)) pg hm j hj

theorem labBound_build (files : Array FixingFile) :
    labBound files.size (buildLabeling files) := by
  unfold buildLabeling
  have hgen : ∀ (idxs : List Nat) (l : List (Path × List Nat)),
      labBound files.size l → (∀ i ∈ idxs, i < files.size) →
      labBound files.size (idxs.foldl
        (fun l i => addToLabeling l (files.getD i default).filepath i) l) := by
    intro idxs
    induction idxs with
    | nil => intro l hl _; exact hl
    | cons i t ih =>
      intro l hl hall
      simp only [List.foldl_cons]
      exact ih _ (labBound_addTo _ _ _ _ hl (hall i (List.mem_cons_self i t)))
        (fun j hj => hall j (List.mem_cons_of_mem _ hj))
  exact hgen _ [] (fun pg hpg => absurd hpg (List.not_mem_nil pg))
    (fun i hi => List.mem_range.mp hi)

theorem labBound_setGroup (B : Nat) (lab : List (Path × List Nat)) (k : Path)
    (g : List Nat) (hB : labBound B lab) (hg : ∀ i ∈ g, i < B) :
    labBound B (setGroup lab k g) := by
  induction lab with
  | nil =>
    intro pg hpg
    simp only [setGroup] at hpg
    exact absurd hpg (List.not_mem_nil pg)
  | cons hd t ih =>
    obtain ⟨k', g'⟩ := hd
    intro pg hpg j hj
    unfold setGroup at hpg
    split at hpg
    · rcases List.mem_cons.mp hpg with he | hm
      · subst he
        exact hg j hj
      · exact hB pg (List.mem_cons_of_mem _ hm) j hj
    · rcases List.mem_cons.mp hpg with he | hm
      · subst he
        exact hB (k', g') (List.mem_cons_self _ _) j hj
      · exact ih (fun pg2 h2 => hB pg2 (List.mem_cons_of_mem _ h2)) pg hm j hj

theorem groupLoop_window (ch : List String) (files0 : Array FixingFile)
    (chash : String) (k : Path) (fuel : Nat) :
    ∀ (j : Nat) (st : LabelSt),
    bicFicEq files0 st.files → labBound files0.size st.labeling →
    (∀ lf, some lf ∈ st.out → inWindowOf ch files0 lf) →
    ((∀ lf, some lf ∈ (groupLoop ch chash k fuel j st).1.out → inWindowOf ch files0 lf) ∧
     labBound files0.size (groupLoop ch chash k fuel j st).1.labeling) := by
  induction fuel with
  | zero =>
    intro j st hb hlb hout
    exact ⟨hout, hlb⟩
  | succ fuel ih =>
    intro j st hb hlb hout
    have hG : ∀ i ∈ (lookupGroup st.labeling k).getD [], i < files0.size := by
      cases hlk : lookupGroup st.labeling k with
      | none =>
        intro i hi
        simp at hi
      | some g0 =>
        intro i hi
        exact labBound_lookup _ _ hlb k g0 hlk i (by simpa using hi)
    unfold groupLoop
    dsimp only
    split
    · next hj =>
      have hiB : ((lookupGroup st.labeling k).getD []).get ⟨j, hj⟩ < files0.size :=
        hG _ (List.get_mem _ _ _)
      split
      · exact ⟨hout, hlb⟩
      · next idx_fic hfic =>
        split
        · exact ⟨hout, hlb⟩
        · next idx_bic hbic =>
          split
          · exact ⟨hout, hlb⟩
          · next idx_commit hcomm =>
            split
            · next hw =>
              have hwin : inWindowOf ch files0
                  ⟨(st.files.getD (((lookupGroup st.labeling k).getD []).get ⟨j, hj⟩)
                      default).filepath, chash, .FAILURE_PRONE,
                    (st.files.getD (((lookupGroup st.labeling k).getD []).get ⟨j, hj⟩)
                      default).fic⟩ := by
                refine ⟨((lookupGroup st.labeling k).getD []).get ⟨j, hj⟩,
                  idx_fic, idx_commit, idx_bic, hiB, ?_, ?_, ?_, ?_, hw.2, hw.1⟩
                · exact (hb.2 _).2
                · exact hfic
                · exact hcomm
                · rw [(hb.2 _).1]
                  exact hbic
              have hout2 : ∀ lf, some lf ∈ st.out ++
                  [some ⟨(st.files.getD (((lookupGroup st.labeling k).getD []).get ⟨j, hj⟩)
                      default).filepath, chash, .FAILURE_PRONE,
                    (st.files.getD (((lookupGroup st.labeling k).getD []).get ⟨j, hj⟩)
                      default).fic⟩] → inWindowOf ch files0 lf := by
                intro lf hm
                rcases List.mem_append.mp hm with hm | hm
                · exact hout lf hm
                · simp only [List.mem_singleton, Option.some.injEq] at hm
                  subst hm
                  exact hwin
              split
              · next heqbc =>
                split
                · exact ⟨hout2, hlb⟩
                · next tg htg =>
                  split
                  · exact ⟨hout2, hlb⟩
                  · next r hr =>
                    refine ih (j + 1) _ hb ?_ hout2
                    exact labBound_setGroup _ _ _ _ hlb
                      (fun i hi => labBound_lookup _ _ hlb _ tg htg i
                        (List.eraseIdx_subset tg r hi))
              · exact ih (j + 1) _ hb hlb hout2
            · exact ih (j + 1) st hb hlb hout
    · exact ⟨hout, hlb⟩

theorem snapLoop_out_eq (ch : List String) (chash : String) (m : Modification)
    (st : LabelSt) (snap : List Nat) :
    (snapLoop ch chash m st snap).1.out = st.out := by
  induction snap generalizing st with
  | nil => rfl
  | cons i rest ih =>
    unfold snapLoop
    dsimp only
    repeat first
      | rfl
      | exact ih st
      | split

theorem snapLoop_labBound (ch : List String) (B : Nat) (chash : String)
    (m : Modification) (snap : List Nat) (st : LabelSt)
    (hlb : labBound B st.labeling) :
    labBound B (snapLoop ch chash m st snap).1.labeling := by
  induction snap generalizing st with
  | nil => exact hlb
  | cons i rest ih
  => unfold snapLoop
     dsimp only
     split
     · exact hlb
     · split
       · exact hlb
       · split
         · split
           · exact hlb
           · split
             · split
               · split
                 · exact hlb
                 · next tg htg =>
                   split
                   · exact hlb
                   · next r hr =>
                     exact labBound_setGroup _ _ _ _ hlb
                       (fun x hx => labBound_lookup _ _ hlb _ tg htg x
                         (List.eraseIdx_subset tg r hx))
               · split
                 · exact hlb
                 · exact hlb
             · exact ih st hlb
         · exact ih st hlb

theorem goMods_window (ch : List String) (files0 : Array FixingFile) (chash : String)
    (mods : List Modification) :
    ∀ (st : LabelSt), bicFicEq files0 st.files → labBound files0.size st.labeling →
    (bicFicEq files0 (goMods ch chash st mods).1.files ∧
     labBound files0.size (goMods ch chash st mods).1.labeling ∧
     (goMods ch chash st mods).1.out = st.out) := by
  induction mods with
  | nil =>
    intro st hb hlb
    exact ⟨hb, hlb, rfl⟩
  | cons m rest ih =>
    intro st hb hlb
    unfold goMods
    dsimp only
    have hsf := snapLoop_bicFic ch chash m st ((lookupGroup st.labeling m.new_path).getD [])
    have hsl := snapLoop_labBound ch files0.size chash m
      ((lookupGroup st.labeling m.new_path).getD []) st hlb
    have hso := snapLoop_out_eq ch chash m st ((lookupGroup st.labeling m.new_path).getD [])
    split
    · next st' heq =>
      rw [heq] at hsf hsl hso
      obtain ⟨h1, h2, h3⟩ := ih st' (bicFicEq_trans hb (bicFicEq_symm hsf)) hsl
      exact ⟨h1, h2, h3.trans hso⟩
    · exact ⟨bicFicEq_trans hb (bicFicEq_symm hsf), hsl, hso⟩

theorem goKeys_window (ch : List String) (files0 : Array FixingFile) (chash : String)
    (keys : List Path) :
    ∀ (st : LabelSt), bicFicEq files0 st.files → labBound files0.size st.labeling →
    (∀ lf, some lf ∈ st.out → inWindowOf ch files0 lf) →
    ((∀ lf, some lf ∈ (goKeys ch chash st keys).1.out → inWindowOf ch files0 lf) ∧
     labBound files0.size (goKeys ch chash st keys).1.labeling ∧
     bicFicEq files0 (goKeys ch chash st keys).1.files) := by
  induction keys with
  | nil =>
    intro st hb hlb hout
    exact ⟨hout, hlb, hb⟩
  | cons k rest ih =>
    intro st hb hlb hout
    unfold goKeys
    dsimp only
    have hgl := groupLoop_window ch files0 chash k
      (((lookupGroup st.labeling k).getD []).length + 1) 0 st hb hlb hout
    have hfe := groupLoop_files_eq ch chash k
      (((lookupGroup st.labeling k).getD []).length + 1) 0 st
    split
    · next st' heq =>
      rw [heq] at hgl hfe
      exact ih st' (hfe ▸ hb) hgl.2 hgl.1
    · exact ⟨hgl.1, hgl.2, hfe ▸ hb⟩

theorem processCommit_window (ch : List String) (files0 : Array FixingFile)
    (c : Commit) (st : LabelSt)
    (hb : bicFicEq files0 st.files) (hlb : labBound files0.size st.labeling)
    (hout : ∀ lf, some lf ∈ st.out → inWindowOf ch files0 lf) :
    ((∀ lf, some lf ∈ (processCommit ch c st).1.out → inWindowOf ch files0 lf) ∧
     labBound files0.size (processCommit ch c st).1.labeling ∧
     bicFicEq files0 (processCommit ch c st).1.files) := by
  unfold processCommit
  have hgk := goKeys_window ch files0 c.hash (st.labeling.map Prod.fst) st hb hlb hout
  split
  · next st' heq =>
    rw [heq] at hgk
    obtain ⟨h1, h2, h3⟩ := goMods_window ch files0 c.hash c.modifications st'
      hgk.2.2 hgk.2.1
    exact ⟨fun lf hm => hgk.1 lf (h3 ▸ hm), h2, h1⟩
  · exact hgk

theorem runCommits_window (ch : List String) (files0 : Array FixingFile)
    (cs : List Commit) :
    ∀ (st : LabelSt), bicFicEq files0 st.files → labBound files0.size st.labeling →
    (∀ lf, some lf ∈ st.out → inWindowOf ch files0 lf) →
    ∀ lf, some lf ∈ (runCommits ch st cs).yields → inWindowOf ch files0 lf := by
  induction cs with
  | nil =>
    intro st _ _ hout
    exact hout
  | cons c rest ih =>
    intro st hb hlb hout
    unfold runCommits
    have hpc := processCommit_window ch files0 c st hb hlb hout
    split
    · next st' heq =>
      rw [heq] at hpc
      exact ih st' hpc.2.2 hpc.2.1 hpc.1
    · next st' e heq =>
      rw [heq] at hpc
      exact hpc.1

theorem label_yields_in_window (history : List Commit) (fixing_commits : List String)
    (files0 : Array FixingFile) (lf : LabeledFile)
    (h : some lf ∈ (label history fixing_commits files0).yields) :
    inWindowOf (commitHashes history) files0 lf ∧ lf.commit ≠ lf.fixing_commit := by
  have hpre : ∀ lf2 : LabeledFile,
      some lf2 ∈ (if files0.isEmpty then [(none : Option LabeledFile)] else []) → False := by
    intro lf2 hm
    split at hm
    · simp at hm
    · simp at hm
  have hwin : inWindowOf (commitHashes history) files0 lf := by
    unfold label at h
    dsimp only at h
    split at h
    · exact absurd (hpre lf h) (fun hf => hf)
    · split at h
      · exact absurd (hpre lf h) (fun hf => hf)
      · split at h
        · exact absurd (hpre lf h) (fun hf => hf)
        · exact runCommits_window (commitHashes history) files0 _
            ⟨files0, buildLabeling files0, _⟩ (bicFicEq_refl files0)
            (labBound_build files0) (fun lf2 hm => absurd (hpre lf2 hm) (fun hf => hf)) lf h
  refine ⟨hwin, ?_⟩
  obtain ⟨k, ific, ic, ibic, -, -, hfic, hcomm, -, -, hlt⟩ := hwin
  intro he
  rw [he, hfic] at hcomm
  cases hcomm
  omega

theorem mergeFix_inv (ch : List String) (ffs : List FixingFile) (cur : FixingFile)
    (out : List FixingFile)
    (hffs : ∀ f ∈ ffs, ∃ ib ifc, pyIndex ch f.bic = some ib ∧
      pyIndex ch f.fic = some ifc ∧ ib ≤ ifc)
    (hcur : ∃ ib ifc, pyIndex ch cur.bic = some ib ∧
      pyIndex ch cur.fic = some ifc ∧ ib ≤ ifc)
    (hout : mergeFix ch ffs cur = .ok out) :
    ∀ f ∈ out, ∃ ib ifc, pyIndex ch f.bic = some ib ∧
      pyIndex ch f.fic = some ifc ∧ ib ≤ ifc := by
  have happend : ∀ f ∈ ffs ++ [cur], ∃ ib ifc, pyIndex ch f.bic = some ib ∧
      pyIndex ch f.fic = some ifc ∧ ib ≤ ifc := by
    intro f hf
    rcases List.mem_append.mp hf with hf | hf
    · exact hffs f hf
    · rw [List.mem_singleton.mp hf]
      exact hcur
  unfold mergeFix at hout
  cases hidx : pyFindIdx ffs cur with
  | none =>
    rw [hidx] at hout
    dsimp only at hout
    cases hout
    exact happend
  | some idx =>
    rw [hidx] at hout
    dsimp only at hout
    have hex : ffs.getD idx default ∈ ffs := by
      have hlt := pyFindIdx_lt ffs cur idx hidx
      rw [List.getD_eq_getElem?_getD, List.getElem?_eq_getElem hlt]
      exact List.getElem_mem _
    cases hfic : pyIndex ch cur.fic with
    | none =>
      rw [hfic] at hout
      cases hout
    | some ificCur =>
      rw [hfic] at hout
      dsimp only at hout
      cases hbicE : pyIndex ch (ffs.getD idx default).bic with
      | none =>
        rw [hbicE] at hout
        cases hout
      | some ibicEx =>
        rw [hbicE] at hout
        dsimp only at hout
        by_cases hc1 : ificCur < ibicEx
        · rw [if_pos hc1] at hout
          cases hout
          exact happend
        · rw [if_neg hc1] at hout
          cases hbicC : pyIndex ch cur.bic with
          | none =>
            rw [hbicC] at hout
            cases hout
          | some ibicCur =>
            rw [hbicC] at hout
            dsimp only at hout
            by_cases hc2 : ibicCur < ibicEx
            · rw [if_pos hc2] at hout
              cases hout
              intro f hf
              rcases List.mem_or_eq_of_mem_set hf with hf | hf
              · exact hffs f hf
              · obtain ⟨ibE, ifE, hibE, hifE, hleE⟩ := hffs _ hex
                rw [hf]
                refine ⟨ibicCur, ifE, hbicC, hifE, ?_⟩
                have heqb : ibE = ibicEx := by
                  rw [hibE] at hbicE
                  exact Option.some.inj hbicE
                omega
            · rw [if_neg hc2] at hout
              cases hout
              exact hffs

theorem processMod_inv (ch : List String) (isRelevant : Path → Bool)
    (fc : List String) (chash : String)
    (st : List (Path × Path) × List FixingFile) (m : Modification)
    (out : List (Path × Path) × List FixingFile)
    (hb : ∀ b ∈ m.blame, ∃ ib ic, pyIndex ch b = some ib ∧
      pyIndex ch chash = some ic ∧ ib < ic)
    (hffs : ∀ f ∈ st.2, ∃ ib ifc, pyIndex ch f.bic = some ib ∧
      pyIndex ch f.fic = some ifc ∧ ib ≤ ifc)
    (hout : processMod ch isRelevant fc chash st m = .ok out) :
    ∀ f ∈ out.2, ∃ ib ifc, pyIndex ch f.bic = some ib ∧
      pyIndex ch f.fic = some ifc ∧ ib ≤ ifc := by
  obtain ⟨rn, ffs⟩ := st
  unfold processMod at hout
  dsimp only at hout
  split at hout
  · cases hout
    exact hffs
  · split at hout
    · cases hout
      exact hffs
    · split at hout
      · cases hout
        exact hffs
      · split at hout
        · cases hout
          exact hffs
        · split at hout
          · cases hout
          · next bic hbic =>
            have hbmem : bic ∈ m.blame := by
              have hmem : bic ∈ sort_commits ch m.blame := by
                cases hsc : sort_commits ch m.blame with
                | nil => rw [hsc] at hbic; cases hbic
                | cons a t =>
                  rw [hsc] at hbic
                  have ha : a = bic := by simpa using hbic
                  rw [ha]
                  exact List.mem_cons_self bic t
              unfold sort_commits at hmem
              have := (List.mem_filter.mp hmem).2
              simpa using this
            obtain ⟨ib, ic, hib, hic, hlt⟩ := hb bic hbmem
            split at hout
            · next ffs' hmf =>
              cases hout
              exact mergeFix_inv ch ffs _ ffs' hffs ⟨ib, ic, hib, hic, le_of_lt hlt⟩ hmf
            · cases hout

theorem goModsExtract_inv (ch : List String) (isRelevant : Path → Bool)
    (fc : List String) (chash : String) (mods : List Modification)
    (st out : List (Path × Path) × List FixingFile)
    (hb : ∀ m ∈ mods, ∀ b ∈ m.blame, ∃ ib ic, pyIndex ch b = some ib ∧
      pyIndex ch chash = some ic ∧ ib < ic)
    (hffs : ∀ f ∈ st.2, ∃ ib ifc, pyIndex ch f.bic = some ib ∧
      pyIndex ch f.fic = some ifc ∧ ib ≤ ifc)
    (hout : goModsExtract ch isRelevant fc chash st mods = .ok out) :
    ∀ f ∈ out.2, ∃ ib ifc, pyIndex ch f.bic = some ib ∧
      pyIndex ch f.fic = some ifc ∧ ib ≤ ifc := by
  induction mods generalizing st with
  | nil =>
    unfold goModsExtract at hout
    cases hout
    exact hffs
  | cons m rest ih =>
    unfold goModsExtract at hout
    split at hout
    · next st' hpm =>
      exact ih st' (fun m' hm' => hb m' (by simp [hm']))
        (processMod_inv ch isRelevant fc chash st m st' (hb m (by simp)) hffs hpm) hout
    · cases hout

theorem goCommitsExtract_inv (ch : List String) (isRelevant : Path → Bool)
    (fc : List String) (cs : List Commit)
    (st out : List (Path × Path) × List FixingFile)
    (hb : ∀ c ∈ cs, ∀ m ∈ c.modifications, ∀ b ∈ m.blame,
      ∃ ib ic, pyIndex ch b = some ib ∧ pyIndex ch c.hash = some ic ∧ ib < ic)
    (hffs : ∀ f ∈ st.2, ∃ ib ifc, pyIndex ch f.bic = some ib ∧
      pyIndex ch f.fic = some ifc ∧ ib ≤ ifc)
    (hout : goCommitsExtract ch isRelevant fc st cs = .ok out) :
    ∀ f ∈ out.2, ∃ ib ifc, pyIndex ch f.bic = some ib ∧
      pyIndex ch f.fic = some ifc ∧ ib ≤ ifc := by
  induction cs generalizing st with
  | nil =>
    unfold goCommitsExtract at hout
    cases hout
    exact hffs
  | cons c rest ih =>
    unfold goCommitsExtract at hout
    split at hout
    · next st' hgm =>
      exact ih st' (fun c' hc' => hb c' (by simp [hc']))
        (goModsExtract_inv ch isRelevant fc c.hash c.modifications st st'
          (hb c (by simp)) hffs hgm) hout
    · cases hout

/-! Lemmas about the message-cleaning step. -/

theorem isPrefixOf_get? (w z : List Char) (h : w.isPrefixOf z = true) :
    ∀ i, i < w.length → z.get? i = w.get? i := by
  induction w generalizing z with
  | nil => simp
  | cons a wt ih =>
    cases z with
    | nil => simp [List.isPrefixOf] at h
    | cons b zt =>
      simp only [List.isPrefixOf, Bool.and_eq_true, beq_iff_eq] at h
      intro i hi
      cases i with
      | zero =>
        simp [h.1]
      | succ i' =>
        simp only [List.get?_cons_succ]
        exact ih zt h.2 i' (by simpa using hi)

theorem isPrefixOf_eq_of_agree (w x y : List Char)
    (h : ∀ i, i < w.length → x.get? i = y.get? i) :
    w.isPrefixOf x = w.isPrefixOf y := by
  induction w generalizing x y with
  | nil => cases x <;> cases y <;> rfl
  | cons a wt ih =>
    have h0 := h 0 (by simp)
    cases x with
    | nil =>
      cases y with
      | nil => rfl
      | cons b yt => simp at h0
    | cons b xt =>
      cases y with
      | nil => simp at h0
      | cons c yt =>
        simp only [List.get?_cons_zero, Option.some.injEq] at h0
        simp only [List.isPrefixOf, h0]
        congr 1
        exact ih xt yt (fun i hi => by
          have := h (i + 1) (by simpa using hi)
          simpa using this)

theorem isPrefixOf_append_self (p t : List Char) : p.isPrefixOf (p ++ t) = true := by
  induction p with
  | nil => cases t <;> rfl
  | cons a pt ih => simp [List.isPrefixOf, ih]

theorem take_agree_get? (x y : List Char) (k : Nat) (h : x.take k = y.take k) :
    ∀ i, i < k → x.get? i = y.get? i := by
  intro i hi
  have hx : (x.take k).get? i = x.get? i := List.get?_take hi
  have hy : (y.take k).get? i = y.get? i := List.get?_take hi
  rw [← hx, ← hy, h]

theorem mem_take_get? (l : List Char) (n : Nat) (c : Char) (h : c ∈ l.take n) :
    ∃ i, i < n ∧ l.get? i = some c := by
  obtain ⟨⟨i, hi⟩, hgi⟩ := List.mem_iff_get.mp h
  refine ⟨i, ?_, ?_⟩
  · have := hi
    simp only [List.length_take, lt_min_iff] at this
    exact this.1
  · have hlt : i < l.length := by
      have := hi
      simp only [List.length_take, lt_min_iff] at this
      exact this.2
    have hn : i < n := by
      have := hi
      simp only [List.length_take, lt_min_iff] at this
      exact this.1
    rw [← List.get?_take hn, List.get?_eq_get hi, hgi]

theorem all_take_get? (l : List Char) (j i : Nat) (c : Char)
    (hall : (l.take j).all isWordChar = true) (hi : i < j) (hc : l.get? i = some c) :
    isWordChar c = true := by
  have hmem : c ∈ l.take j := by
    have := List.get?_take hi (l := l)
    rw [hc] at this
    exact List.get?_mem this
  exact List.all_eq_true.mp hall c hmem

theorem isWordChar_of_lc (c : Char) (h : isWordChar (lcChar c) = true) :
    isWordChar c = true := by
  unfold lcChar at h
  by_cases hc : 'A' ≤ c ∧ c ≤ 'Z'
  · unfold isWordChar
    rw [decide_eq_true hc.1, decide_eq_true hc.2]
    simp
  · rw [if_neg hc] at h
    exact h

theorem firstOcc_none_removeAll (pat s : List Char) (h : firstOcc pat s = none) :
    removeAll pat s = s := by
  induction s with
  | nil => simp [removeAll]
  | cons c t ih =>
    unfold firstOcc at h
    unfold removeAll
    split at h
    · cases h
    · next hcond =>
      rw [if_neg hcond]
      congr 1
      apply ih
      cases hft : firstOcc pat t
      · rfl
      · rw [hft] at h
        simp at h

theorem firstOcc_some_take (pat s : List Char) (k : Nat)
    (h : firstOcc pat s = some k) : (removeAll pat s).take k = s.take k := by
  induction s generalizing k with
  | nil => cases h
  | cons c t ih =>
    unfold firstOcc at h
    unfold removeAll
    split at h
    · next hcond =>
      cases h
      rw [if_pos hcond]
      rfl
    · next hcond =>
      rw [if_neg hcond]
      cases hft : firstOcc pat t with
      | none =>
        rw [hft] at h
        simp at h
      | some k' =>
        rw [hft] at h
        simp only [Option.map_some'] at h
        cases h
        simp only [List.take_succ_cons]
        congr 1
        exact ih k' hft

theorem firstOcc_some_occ (pat s : List Char) (k : Nat)
    (h : firstOcc pat s = some k) :
    pat.isPrefixOf (s.drop k) = true ∧ pat ≠ [] := by
  induction s generalizing k with
  | nil => cases h
  | cons c t ih =>
    unfold firstOcc at h
    split at h
    · next hcond =>
      cases h
      exact ⟨hcond.1, hcond.2⟩
    · cases hft : firstOcc pat t with
      | none =>
        rw [hft] at h
        simp at h
      | some k' =>
        rw [hft] at h
        simp only [Option.map_some'] at h
        cases h
        simpa using ih k' hft

theorem removeAll_append_self (pat t : List Char) (hne : pat ≠ []) :
    removeAll pat (pat ++ t) = removeAll pat t := by
  cases pat with
  | nil => exact absurd rfl hne
  | cons a pt =>
    show removeAll (a :: pt) (a :: (pt ++ t)) = _
    conv_lhs => unfold removeAll
    rw [if_pos ⟨isPrefixOf_append_self (a :: pt) t, hne⟩]
    congr 1
    simp only [List.length_cons, Nat.add_sub_cancel]
    exact List.drop_left pt t

theorem bestRep_foldl_none (l : List Nat) (cs : List Char) (acc : Option Nat)
    (h : l.foldl (fun a j => if validRepAt cs j then some j else a) acc = none) :
    acc = none ∧ ∀ j ∈ l, validRepAt cs j = false := by
  induction l generalizing acc with
  | nil => exact ⟨h, by simp⟩
  | cons x t ih =>
    simp only [List.foldl_cons] at h
    obtain ⟨hacc', ht⟩ := ih _ h
    by_cases hx : validRepAt cs x = true
    · rw [if_pos hx] at hacc'
      cases hacc'
    · rw [if_neg hx] at hacc'
      refine ⟨hacc', ?_⟩
      intro j hj
      rcases List.mem_cons.mp hj with hj | hj
      · subst hj
        simpa using hx
      · exact ht j hj

theorem bestRep_none (cs : List Char) (h : bestRep cs = none) :
    ∀ j, validRepAt cs j = false := by
  intro j
  by_cases hj : validRepAt cs j = true
  · have hle := validRepAt_le cs j hj
    have hmem : j ∈ List.range (cs.length + 1) := by
      rw [List.mem_range]
      omega
    have := (bestRep_foldl_none _ cs none h).2 j hmem
    rw [hj] at this
    cases this
  · simpa using hj

theorem leadingRunLen_eq_none (cs : List Char) (h : bestRep cs = none) :
    leadingRunLen cs = 0 := by
  rw [leadingRunLen]
  split
  · rfl
  · next j hb =>
    rw [h] at hb
    cases hb

theorem leadingRunLen_eq_some (cs : List Char) (j : Nat) (h : bestRep cs = some j) :
    leadingRunLen cs = j + 4 + leadingRunLen (cs.drop (j + 4)) := by
  rw [leadingRunLen]
  split
  · next hb =>
    rw [h] at hb
    cases hb
  · next j' hb =>
    rw [h] at hb
    cases hb
    rfl

theorem leadingRunLen_le (cs : List Char) : leadingRunLen cs ≤ cs.length := by
  induction cs using leadingRunLen.induct with
  | case1 cs hb =>
    rw [leadingRunLen_eq_none cs hb]
    omega
  | case2 cs j hb ih =>
    rw [leadingRunLen_eq_some cs j hb]
    have h4 := validRepAt_le cs j (bestRep_valid cs j hb)
    have hdrop : (cs.drop (j + 4)).length = cs.length - (j + 4) := List.length_drop _ _
    omega

theorem bestRep_drop_leadingRunLen (cs : List Char) :
    bestRep (cs.drop (leadingRunLen cs)) = none := by
  induction cs using leadingRunLen.induct with
  | case1 cs hb =>
    rw [leadingRunLen_eq_none cs hb, List.drop_zero]
    exact hb
  | case2 cs j hb ih =>
    rw [leadingRunLen_eq_some cs j hb]
    rw [← List.drop_drop]
    exact ih

theorem leadingRunLen_first_rep (cs : List Char) (hn : leadingRunLen cs ≠ 0) :
    ∃ j, validRepAt cs j = true ∧ j + 4 ≤ leadingRunLen cs := by
  cases hb : bestRep cs with
  | none =>
    rw [leadingRunLen_eq_none cs hb] at hn
    exact absurd rfl hn
  | some j =>
    refine ⟨j, bestRep_valid cs j hb, ?_⟩
    rw [leadingRunLen_eq_some cs j hb]
    omega

theorem validRepAt_get? (cs : List Char) (j : Nat) (h : validRepAt cs j = true) :
    1 ≤ j ∧ (cs.take j).all isWordChar = true ∧
    ∃ x y z w, cs.get? j = some x ∧ cs.get? (j + 1) = some y ∧
      cs.get? (j + 2) = some z ∧ cs.get? (j + 3) = some w ∧
      isBugOrFix x y z = true ∧ isWordChar w = true := by
  unfold validRepAt at h
  rcases Bool.and_eq_true_iff.mp h with ⟨h12, hm⟩
  rcases Bool.and_eq_true_iff.mp h12 with ⟨h1, h2⟩
  refine ⟨by simpa using h1, h2, ?_⟩
  cases hx : cs.get? j <;> rw [hx] at hm
  · cases hy : cs.get? (j + 1) <;> rw [hy] at hm <;> simp at hm
  · cases hy : cs.get? (j + 1) <;> rw [hy] at hm
    · simp at hm
    · cases hz : cs.get? (j + 2) <;> rw [hz] at hm
      · simp at hm
      · cases hw : cs.get? (j + 3) <;> rw [hw] at hm
        · simp at hm
        · rcases Bool.and_eq_true_iff.mp hm with ⟨hbf, hwc⟩
          exact ⟨_, _, _, _, rfl, rfl, rfl, rfl, hbf, hwc⟩

theorem validRepAt_intro (cs : List Char) (j : Nat)
    (h1 : 1 ≤ j) (h2 : ∀ i c, i < j → cs.get? i = some c → isWordChar c = true)
    (hxyzw : ∃ x y z w, cs.get? j = some x ∧ cs.get? (j + 1) = some y ∧
      cs.get? (j + 2) = some z ∧ cs.get? (j + 3) = some w ∧
      isBugOrFix x y z = true ∧ isWordChar w = true) :
    validRepAt cs j = true := by
  obtain ⟨x, y, z, w, hx, hy, hz, hw, hbf, hwc⟩ := hxyzw
  unfold validRepAt
  rw [hx, hy, hz, hw]
  have htake : (cs.take j).all isWordChar = true := by
    rw [List.all_eq_true]
    intro c hc
    obtain ⟨i, hi, hgi⟩ := mem_take_get? cs j c hc
    exact h2 i c hi hgi
  simp [h1, htake, hbf, hwc]

/-- The crux: the greedy leading run is maximal, so its text `g` cannot
occur in the remainder `s` behind a purely word-character span — a
repetition of the pattern would match at the start of `s`, contradicting
that the run stopped there. -/
theorem rep_at_occurrence (msg : List Char) (k : Nat)
    (hn : leadingRunLen msg ≠ 0)
    (hocc : (msg.take (leadingRunLen msg)).isPrefixOf
      ((msg.drop (leadingRunLen msg)).drop k) = true)
    (hword : ∀ i c, i < k → (msg.drop (leadingRunLen msg)).get? i = some c →
      isWordChar c = true) :
    False := by
  obtain ⟨j, hj, hjn⟩ := leadingRunLen_first_rep msg hn
  obtain ⟨hj1, hjtake, x, y, z, w, hx, hy, hz, hw, hbf, hwc⟩ := validRepAt_get? msg j hj
  have hle := leadingRunLen_le msg
  have hglen : (msg.take (leadingRunLen msg)).length = leadingRunLen msg := by
    rw [List.length_take]
    omega
  have hsg : ∀ i, i < leadingRunLen msg →
      (msg.drop (leadingRunLen msg)).get? (k + i) = msg.get? i := by
    intro i hi
    have h1 := isPrefixOf_get? _ _ hocc i (by omega)
    rw [List.get?_drop, List.get?_drop] at h1
    rw [List.get?_drop]
    rw [h1, List.get?_take hi]
  have hvalid : validRepAt (msg.drop (leadingRunLen msg)) (k + j) = true := by
    apply validRepAt_intro
    · omega
    · intro i c hi hgi
      by_cases hik : i < k
      · exact hword i c hik hgi
      · have hieq : i = k + (i - k) := by omega
        rw [hieq, hsg (i - k) (by omega)] at hgi
        exact all_take_get? msg j (i - k) c hjtake (by omega) hgi
    · refine ⟨x, y, z, w, ?_, ?_, ?_, ?_, hbf, hwc⟩
      · rw [hsg j (by omega)]
        exact hx
      · rw [show k + j + 1 = k + (j + 1) by omega, hsg (j + 1) (by omega)]
        exact hy
      · rw [show k + j + 2 = k + (j + 2) by omega, hsg (j + 2) (by omega)]
        exact hz
      · rw [show k + j + 3 = k + (j + 3) by omega, hsg (j + 3) (by omega)]
        exact hw
  have hnone := bestRep_none _ (bestRep_drop_leadingRunLen msg) (k + j)
  rw [hvalid] at hnone
  cases hnone

theorem word_prefixOf_eq (msg : List Char) (w : List Char)
    (hn : leadingRunLen msg ≠ 0)
    (hword : w.all isWordChar = true) :
    w.isPrefixOf ((removeAll (msg.take (leadingRunLen msg))
        (msg.drop (leadingRunLen msg))).map lcChar) =
      w.isPrefixOf ((msg.drop (leadingRunLen msg)).map lcChar) := by
  cases hocc : firstOcc (msg.take (leadingRunLen msg)) (msg.drop (leadingRunLen msg)) with
  | none => rw [firstOcc_none_removeAll _ _ hocc]
  | some k =>
    by_cases hlen : w.length ≤ k
    · apply isPrefixOf_eq_of_agree
      intro i hi
      have hagree := take_agree_get? _ _ k (firstOcc_some_take _ _ k hocc)
      rw [List.get?_map, List.get?_map, hagree i (by omega)]
    · have hfalse : ∀ z : List Char,
          z.take k = (msg.drop (leadingRunLen msg)).take k →
          w.isPrefixOf (z.map lcChar) = false := by
        intro z hzk
        by_cases hz : w.isPrefixOf (z.map lcChar) = true
        · exfalso
          apply rep_at_occurrence msg k hn (firstOcc_some_occ _ _ k hocc).1
          intro i c hi hgi
          have hwi := isPrefixOf_get? w (z.map lcChar) hz i (by omega)
          have hzi : z.get? i = (msg.drop (leadingRunLen msg)).get? i :=
            take_agree_get? z _ k hzk i hi
          rw [List.get?_map, hzi, hgi] at hwi
          cases hwg : w.get? i with
          | none =>
            rw [hwg] at hwi
            cases hwi
          | some d =>
            rw [hwg] at hwi
            have hlcd : lcChar c = d := by simpa using hwi
            apply isWordChar_of_lc
            rw [hlcd]
            exact List.all_eq_true.mp hword d (List.get?_mem hwg)
        · exact Bool.eq_false_iff.mpr hz
      rw [hfalse _ (firstOcc_some_take _ _ k hocc), hfalse _ rfl]

theorem any_congr_words (l : List (List Char)) (f g : List Char → Bool)
    (h : ∀ w ∈ l, f w = g w) : l.any f = l.any g := by
  induction l with
  | nil => rfl
  | cons a t ih =>
    simp only [List.any_cons, h a (by simp), ih (fun w hw => h w (by simp [hw]))]

/-- The observable equivalence: testing the code's cleaned message (all
occurrences of the maximal leading run removed) against the default
regex gives the same answer as testing the message with only the leading
run stripped. -/
theorem msgTest_eq_leading_strip (msg : List Char) :
    msgTest matchDefaultRegex msg =
      matchDefaultRegex ((msg.drop (leadingRunLen msg)).map lcChar) := by
  unfold msgTest pyCleanMsg
  by_cases hn : leadingRunLen msg = 0
  · rw [if_pos hn, hn, List.drop_zero]
  · rw [if_neg hn]
    have hgne : msg.take (leadingRunLen msg) ≠ [] := by
      intro he
      have hle := leadingRunLen_le msg
      have hlen := congrArg List.length he
      rw [List.length_take] at hlen
      simp only [List.length_nil] at hlen
      omega
    have hsplit : removeAll (msg.take (leadingRunLen msg)) msg =
        removeAll (msg.take (leadingRunLen msg)) (msg.drop (leadingRunLen msg)) := by
      have h1 := removeAll_append_self (msg.take (leadingRunLen msg))
        (msg.drop (leadingRunLen msg)) hgne
      rw [List.take_append_drop] at h1
      exact h1
    rw [hsplit]
    unfold matchDefaultRegex
    apply any_congr_words
    intro w hw
    apply word_prefixOf_eq msg w hn
    have : ∀ w' ∈ defaultFixWords, w'.all isWordChar = true := by decide
    exact this w hw

/-! Lemmas for the idempotence of mine. -/

theorem mem_sort_commits (ch l : List String) (x : String) :
    x ∈ sort_commits ch l ↔ x ∈ ch ∧ x ∈ l := by
  unfold sort_commits
  simp [List.mem_filter]

theorem sort_commits_congr (ch l1 l2 : List String)
    (h : ∀ x ∈ ch, (x ∈ l1 ↔ x ∈ l2)) :
    sort_commits ch l1 = sort_commits ch l2 := by
  unfold sort_commits
  apply List.filter_congr
  intro x hx
  have h1 := h x hx
  by_cases hm : x ∈ l1
  · have hm2 := h1.mp hm
    simp [hm, hm2]
  · have hm2 : x ∉ l2 := fun h2 => hm (h1.mpr h2)
    simp [hm, hm2]

theorem sort_commits_idem (ch l : List String) :
    sort_commits ch (sort_commits ch l) = sort_commits ch l := by
  apply sort_commits_congr
  intro x hx
  rw [mem_sort_commits]
  exact ⟨fun h => h.2, fun h => ⟨hx, h⟩⟩

theorem sort_commits_nil (ch : List String) : sort_commits ch [] = [] := by
  unfold sort_commits
  simp

theorem sort_commits_eq_nil (ch l : List String)
    (h : ∀ x ∈ ch, x ∉ l) : sort_commits ch l = [] := by
  unfold sort_commits
  rw [List.filter_eq_nil]
  intro x hx
  simp [h x hx]

theorem issues_ok_cases (history : List Commit) (isRelevant : Path → Bool)
    (F fc fc' rF : List String)
    (h : get_fixing_commits_from_closed_issues history isRelevant F fc = .ok (fc', rF)) :
    (F.isEmpty = true ∧ fc' = fc ∧ rF = F) ∨
    (F.isEmpty = false ∧ discard_non_iac_fixing_commits history isRelevant F = .ok rF ∧
      fc' = sort_commits (commitHashes history) (fc ++ rF)) := by
  unfold get_fixing_commits_from_closed_issues at h
  split at h
  · next hg =>
    cases h
    exact Or.inl ⟨hg, rfl, rfl⟩
  · next hg =>
    split at h
    · cases h
    · next F' hd =>
      cases h
      exact Or.inr ⟨Bool.eq_false_iff.mpr hg, hd, rfl⟩

theorem messages_ok_cases (history : List Commit) (isRelevant : Path → Bool)
    (rtest : List Char → Bool) (fc fc' rM : List String)
    (h : get_fixing_commits_from_commit_messages history isRelevant rtest fc = .ok (fc', rM)) :
    (((history.filter (fun c => msgTest rtest c.msg)).map (·.hash)).isEmpty = true ∧
      fc' = fc ∧ rM = (history.filter (fun c => msgTest rtest c.msg)).map (·.hash)) ∨
    (((history.filter (fun c => msgTest rtest c.msg)).map (·.hash)).isEmpty = false ∧
      discard_non_iac_fixing_commits history isRelevant
        ((history.filter (fun c => msgTest rtest c.msg)).map (·.hash)) = .ok rM ∧
      fc' = sort_commits (commitHashes history) (fc ++ rM)) := by
  unfold get_fixing_commits_from_commit_messages at h
  dsimp only at h
  split at h
  · next hg =>
    cases h
    exact Or.inl ⟨hg, rfl, rfl⟩
  · next hg =>
    split at h
    · cases h
    · next F' hd =>
      cases h
      exact Or.inr ⟨Bool.eq_false_iff.mpr hg, hd, rfl⟩

theorem gff_congr (history : List Commit) (isRelevant : Path → Bool)
    (fc1 fc2 : List String) (ff1 ff2 : List FixingFile)
    (h1 : fc1.isEmpty = false) (h2 : fc2.isEmpty = false)
    (hs : sort_commits (commitHashes history) fc1 =
      sort_commits (commitHashes history) fc2) :
    get_fixing_files history isRelevant fc1 ff1 =
      get_fixing_files history isRelevant fc2 ff2 := by
  unfold get_fixing_files
  rw [h1, h2]
  simp only [Bool.false_eq_true, if_false]
  rw [hs]

theorem gff_ok_cases (history : List Commit) (isRelevant : Path → Bool)
    (fc : List String) (ff : List FixingFile) (fc' : List String)
    (ff' : List FixingFile)
    (h : get_fixing_files history isRelevant fc ff = .ok (fc', ff')) :
    (fc = [] ∧ fc' = fc ∧ ff' = ff) ∨
    (fc ≠ [] ∧ fc' = sort_commits (commitHashes history) fc ∧ fc' ≠ []) := by
  unfold get_fixing_files at h
  split at h
  · next hg =>
    cases h
    exact Or.inl ⟨List.isEmpty_iff.mp hg, rfl, rfl⟩
  · next hg =>
    have hne : fc ≠ [] := by
      intro he
      rw [he] at hg
      exact hg rfl
    dsimp only at h
    split at h
    · next lastF firstF hlast hfirst =>
      split at h
      · cases h
      · split at h
        · cases h
        · split at h
          · next rn2 ffs2 hgo =>
            cases h
            refine Or.inr ⟨hne, rfl, ?_⟩
            intro hsnil
            rw [hsnil] at hlast
            cases hlast
          · cases h
    · cases h

theorem stage_mem_or (ch fc r fcn : List String)
    (h : (fcn = fc ∧ r = []) ∨ fcn = sort_commits ch (fc ++ r))
    (x : String) (hx : x ∈ ch) : x ∈ fcn ↔ (x ∈ fc ∨ x ∈ r) := by
  rcases h with ⟨h1, h2⟩ | h1
  · subst h1
    subst h2
    simp
  · subst h1
    rw [mem_sort_commits]
    simp [List.mem_append, hx]

theorem issues_pair (history : List Commit) (isRelevant : Path → Bool)
    (F a b a' b' rA rB : List String)
    (hA : get_fixing_commits_from_closed_issues history isRelevant F a = .ok (a', rA))
    (hB : get_fixing_commits_from_closed_issues history isRelevant F b = .ok (b', rB)) :
    ((a' = a ∧ rA = []) ∨ a' = sort_commits (commitHashes history) (a ++ rA)) ∧
    ((b' = b ∧ rA = []) ∨ b' = sort_commits (commitHashes history) (b ++ rA)) := by
  rcases issues_ok_cases history isRelevant F a a' rA hA with
      ⟨hFe, hfa, hra⟩ | ⟨hFe, hda, hfa⟩ <;>
    rcases issues_ok_cases history isRelevant F b b' rB hB with
      ⟨hFe2, hfb, hrb⟩ | ⟨hFe2, hdb, hfb⟩
  · have hFn : F = [] := List.isEmpty_iff.mp hFe
    exact ⟨Or.inl ⟨hfa, by rw [hra, hFn]⟩, Or.inl ⟨hfb, by rw [hra, hFn]⟩⟩
  · rw [hFe] at hFe2
    exact Bool.noConfusion hFe2
  · rw [hFe2] at hFe
    exact Bool.noConfusion hFe
  · rw [hda] at hdb
    cases hdb
    exact ⟨Or.inr hfa, Or.inr hfb⟩

theorem messages_pair (history : List Commit) (isRelevant : Path → Bool)
    (rtest : List Char → Bool) (a b a' b' rA rB : List String)
    (hA : get_fixing_commits_from_commit_messages history isRelevant rtest a = .ok (a', rA))
    (hB : get_fixing_commits_from_commit_messages history isRelevant rtest b = .ok (b', rB)) :
    ((a' = a ∧ rA = []) ∨ a' = sort_commits (commitHashes history) (a ++ rA)) ∧
    ((b' = b ∧ rA = []) ∨ b' = sort_commits (commitHashes history) (b ++ rA)) := by
  rcases messages_ok_cases history isRelevant rtest a a' rA hA with
      ⟨hFe, hfa, hra⟩ | ⟨hFe, hda, hfa⟩ <;>
    rcases messages_ok_cases history isRelevant rtest b b' rB hB with
      ⟨hFe2, hfb, hrb⟩ | ⟨hFe2, hdb, hfb⟩
  · have hFn : ((history.filter (fun c => msgTest rtest c.msg)).map (·.hash)) = [] :=
      List.isEmpty_iff.mp hFe
    exact ⟨Or.inl ⟨hfa, by rw [hra, hFn]⟩, Or.inl ⟨hfb, by rw [hra, hFn]⟩⟩
  · rw [hFe] at hFe2
    exact Bool.noConfusion hFe2
  · rw [hFe2] at hFe
    exact Bool.noConfusion hFe
  · rw [hda] at hdb
    cases hdb
    exact ⟨Or.inr hfa, Or.inr hfb⟩

theorem gff_nil (history : List Commit) (isRelevant : Path → Bool)
    (ff : List FixingFile) :
    get_fixing_files history isRelevant [] ff = .ok ([], ff) := rfl

theorem label_nil_files (history : List Commit) (a : Array FixingFile) :
    (label history [] a).files = a := rfl

/-! Claim theorems. -/

/-- C2: during get_fixing_files, when the freshly built `current_fix`
shares a filepath with an existing entry (the first such entry,
`existing_fix`), the merge step appends `current_fix` as a separate entry
when `index(current_fix.fic) < index(existing_fix.bic)`, updates
`existing_fix.bic` in place to `current_fix.bic` when instead
`index(current_fix.bic) < index(existing_fix.bic)`, and otherwise leaves
the list unchanged. -/
theorem mergeFix_cases (ch : List String) (ffs : List FixingFile)
    (cur ex : FixingFile) (idx ificC ibicE ibicC : Nat)
    (hidx : pyFindIdx ffs cur = some idx)
    (hex : ffs.get? idx = some ex)
    (h1 : pyIndex ch cur.fic = some ificC)
    (h2 : pyIndex ch ex.bic = some ibicE)
    (h3 : pyIndex ch cur.bic = some ibicC) :
    mergeFix ch ffs cur = .ok (
      if ificC < ibicE then ffs ++ [cur]
      else if ibicC < ibicE then ffs.set idx { ex with bic := cur.bic }
      else ffs) := by
  have hgd : ffs.getD idx default = ex := by
    rw [List.getD_eq_getElem?_getD, ← List.get?_eq_getElem?, hex]
    rfl
  unfold mergeFix
  rw [hidx]
  simp only [hgd, h1, h2, h3]
  by_cases hc1 : ificC < ibicE
  · rw [if_pos hc1, if_pos hc1]
  · rw [if_neg hc1, if_neg hc1]
    by_cases hc2 : ibicC < ibicE
    · rw [if_pos hc2, if_pos hc2]
    · rw [if_neg hc2, if_neg hc2]

/-- C2 witness: a concrete merge where the current fixing commit predates
the existing bug-inducing commit, so a separate entry is appended. -/
theorem mergeFix_cases_witness :
    mergeFix ["a", "b", "c", "d"]
      [⟨some "p", "c", "d"⟩] ⟨some "p", "a", "b"⟩ =
      .ok [⟨some "p", "c", "d"⟩, ⟨some "p", "a", "b"⟩] := by
  have h := mergeFix_cases ["a", "b", "c", "d"]
    [⟨some "p", "c", "d"⟩] ⟨some "p", "a", "b"⟩ ⟨some "p", "c", "d"⟩
    0 1 2 0 (by decide) (by decide) (by decide) (by decide) (by decide)
  simpa using h

/-- C10: because FixingFile equality compares filepaths only, the merge
step of get_fixing_files selects as `existing_fix` the first entry of the
list sharing the filepath of `current_fix` (every earlier entry has a
different filepath), and every other position of the list is left exactly
as it was: entries appended later for the same path are never selected
and never have their bic updated. -/
theorem mergeFix_first_entry_only (ch : List String) (ffs : List FixingFile)
    (cur : FixingFile) (idx : Nat) (out : List FixingFile)
    (hidx : pyFindIdx ffs cur = some idx)
    (hout : mergeFix ch ffs cur = .ok out) :
    (∃ g, ffs.get? idx = some g ∧ g.filepath = cur.filepath) ∧
    (∀ j g, j < idx → ffs.get? j = some g → g.filepath ≠ cur.filepath) ∧
    (∀ j g, j < ffs.length → j ≠ idx → ffs.get? j = some g → out.get? j = some g) := by
  refine ⟨pyFindIdx_get ffs cur idx hidx, pyFindIdx_first ffs cur idx hidx, ?_⟩
  intro j g hj hne hg
  have happ : (ffs ++ [cur]).get? j = some g := by
    rw [List.get?_eq_getElem?, List.getElem?_append_left hj, ← List.get?_eq_getElem?]
    exact hg
  have hset : ∀ v, (ffs.set idx v).get? j = some g := by
    intro v
    rw [List.get?_eq_getElem?, List.getElem?_set_ne (by omega), ← List.get?_eq_getElem?]
    exact hg
  unfold mergeFix at hout
  rw [hidx] at hout
  dsimp only at hout
  split at hout
  · cases hout
  · split at hout
    · cases hout
    · split at hout
      · cases hout
        exact happ
      · split at hout
        · cases hout
        · split at hout
          · cases hout
            exact hset _
          · cases hout
            exact hg

/-- C3 (code divergence): with an empty fixing-files list the label
generator does not produce an empty stream: it yields one `None` element
(`yield None` without a `return`), and when `self.fixing_commits` is also
empty it then raises `IndexError` on `self.fixing_commits[-1]`.  The
claim and the spec require an empty stream and no error. -/
theorem label_empty_fixing_files_yields_none :
    label histC3 ["h0"] #[] = ⟨[none], none, #[]⟩ ∧
    label histC3 [] #[] = ⟨[none], some .indexError, #[]⟩ := ⟨rfl, rfl⟩

/-- C1 counterexample: the window condition holds for the entry at the
visited commit h1 (idxFic = 3 > 1 and 1 ≥ 1 = idxBic), yet the only
LabeledFile the walk emits is for h2: the rename handling removed the
entry at the ADD in h2, so no emission happens at h1 and the emission is
not `exactly when` the window condition holds. -/
theorem label_window_not_exact_cex :
    (label histC1 ["h3"] #[⟨some "p", "h1", "h3"⟩]).yields =
      [some ⟨some "p", "h2", .FAILURE_PRONE, "h3"⟩] ∧
    (label histC1 ["h3"] #[⟨some "p", "h1", "h3"⟩]).error = none ∧
    pyIndex (commitHashes histC1) "h3" = some 3 ∧
    pyIndex (commitHashes histC1) "h1" = some 1 ∧
    pyIndex (commitHashes histC1) "h2" = some 2 := by
  refine ⟨rfl, rfl, rfl, rfl, rfl⟩

/-- C4 counterexample: the labeling walk is fully consumed (no error),
yet the first FixingFile comes out with `filepath = some "old"` where it
went in with `filepath = some "new"`: the rename handling of `label`
mutates the FixingFile objects in place, so the list is not frozen after
get_fixing_files. -/
theorem label_mutates_filepath_cex :
    (label histC4 ["h4"] filesC4).error = none ∧
    (filesC4.getD 0 default).filepath = some "new" ∧
    ((label histC4 ["h4"] filesC4).files.getD 0 default).filepath = some "old" := by
  refine ⟨rfl, rfl, rfl⟩

/-- C5 (code divergence): the emissions do follow the claim (filepath
`new` at and after the rename commit h3, filepath `old` at the older
commits h2 and h1), but when the walk reaches the entry's bic h1 the
removal `labeling[file.filepath]` looks up the key `old` while the group
is still stored under the key `new`: the generator dies with `KeyError`
instead of finding and removing the entry from its group. -/
theorem label_rename_keyerror_at_bic :
    label histC5 ["h4"] #[⟨some "new", "h1", "h4"⟩] =
      ⟨[some ⟨some "new", "h3", .FAILURE_PRONE, "h4"⟩,
        some ⟨some "old", "h2", .FAILURE_PRONE, "h4"⟩,
        some ⟨some "old", "h1", .FAILURE_PRONE, "h4"⟩],
       some (.keyError (some "old")), #[⟨some "old", "h1", "h4"⟩]⟩ := rfl

/-- C1 amended: (i) universally — whatever the repository, the fixing
commits and the FixingFile array — every LabeledFile the labeling walk
emits lies inside the half-open window of a tracked entry carrying its
fixing commit: index(fic) > index(commit) >= index(bic), with bic and
fic read from the array as get_fixing_files produced it, and in
particular no emission has commit = fic; (ii) the emission is `exactly
when` the window holds only while the entry is still tracked (the
rename or ADD bookkeeping, and the filepath-equality removal, can drop
it early).  When nothing interferes — a single tracked FixingFile and
visited commits carrying no modifications — the labeling walk emits
exactly one FAILURE_PRONE LabeledFile for each visited commit whose
index satisfies `idxFic > idxC >= idxBic` and nothing else: in
particular it emits at the bug-inducing commit (when the walk reaches
it), and the entry is removed there and never revisited. -/
theorem label_window_exact_singleton (history : List Commit)
    (fixing_commits : List String) (e : FixingFile) (lastF : String)
    (ilast ific ibic : Nat)
    (hlast : fixing_commits.getLast? = some lastF)
    (hil : pyIndex (commitHashes history) lastF = some ilast)
    (hfic : pyIndex (commitHashes history) e.fic = some ific)
    (hbic : pyIndex (commitHashes history) e.bic = some ibic)
    (hmods : ∀ c ∈ history, c.modifications = [])
    (hnodup : (commitHashes history).Nodup) :
    (∀ (history2 : List Commit) (fc2 : List String) (files2 : Array FixingFile)
        (lf : LabeledFile), some lf ∈ (label history2 fc2 files2).yields →
        inWindowOf (commitHashes history2) files2 lf ∧ lf.commit ≠ lf.fixing_commit) ∧
    label history fixing_commits #[e] =
      ⟨(labelTraversal history ilast).filterMap
          (windowYield (commitHashes history) e ific ibic), none, #[e]⟩ := by
  refine ⟨fun history2 fc2 files2 lf hm =>
    label_yields_in_window history2 fc2 files2 lf hm, ?_⟩
  rw [label_run history fixing_commits #[e] lastF ilast (by simp) hlast hil]
  rw [show buildLabeling #[e] = [(e.filepath, [0])] from rfl]
  rw [runCommits_singleton_window (commitHashes history) e
    (labelTraversal history ilast) [] ific ibic hfic hbic
    (fun c hc => hmods c (labelTraversal_mem history ilast c hc))
    (labelTraversal_indexed history ilast hnodup)
    (labelTraversal_desc history ilast hnodup)]
  simp

/-- C1 witness: the amended theorem applied to a concrete four-commit
history; the emitted stream is exactly the window h2, h1 of the entry
(bic h1, fic h3), and the universal window clause holds. -/
theorem label_window_exact_singleton_witness :
    (∀ (history2 : List Commit) (fc2 : List String) (files2 : Array FixingFile)
        (lf : LabeledFile), some lf ∈ (label history2 fc2 files2).yields →
        inWindowOf (commitHashes history2) files2 lf ∧ lf.commit ≠ lf.fixing_commit) ∧
    label histC1w ["h3"] #[⟨some "p", "h1", "h3"⟩] =
      ⟨(labelTraversal histC1w 3).filterMap
          (windowYield (commitHashes histC1w) ⟨some "p", "h1", "h3"⟩ 3 1),
        none, #[⟨some "p", "h1", "h3"⟩]⟩ :=
  label_window_exact_singleton histC1w ["h3"] ⟨some "p", "h1", "h3"⟩ "h3" 3 3 1
    (by decide) (by decide) (by decide) (by decide) (by decide) (by decide)

/-- C4 amended: whatever the repository, the fixing commits and the
fixing files, the labeling phase never mutates the `bic` or `fic` field
of any FixingFile (and never adds or drops objects): every store
position holds the same bic and fic after `label` has been fully
consumed (or interrupted) as it held when get_fixing_files returned.
Only `filepath` can change, through the in-place rename retargeting. -/
theorem label_preserves_bic_fic (history : List Commit)
    (fixing_commits : List String) (files0 : Array FixingFile) :
    (label history fixing_commits files0).files.size = files0.size ∧
    ∀ i, ((label history fixing_commits files0).files.getD i default).bic =
        (files0.getD i default).bic ∧
      ((label history fixing_commits files0).files.getD i default).fic =
        (files0.getD i default).fic := by
  have h : bicFicEq (label history fixing_commits files0).files files0 := by
    unfold label
    dsimp only
    repeat first
      | exact bicFicEq_refl _
      | exact runCommits_bicFic _ _ _
      | split
  exact ⟨h.1, h.2⟩

/-- C6: under the precondition that the blame attributor only returns
indexed commits strictly earlier than the commit it is invoked on, every
FixingFile produced by get_fixing_files satisfies
`index(bic) <= index(fic)`; the invariant holds when an entry is first
appended (its bic is the oldest blame commit of its own fixing commit)
and is preserved when the merge rule updates an existing entry's bic to
an older one. -/
theorem get_fixing_files_bic_le_fic (history : List Commit)
    (isRelevant : Path → Bool) (fixing_commits : List String)
    (ff0 : List FixingFile) (fc' : List String) (ffs : List FixingFile)
    (hne : fixing_commits ≠ [])
    (hblame : ∀ c ∈ history, ∀ m ∈ c.modifications, ∀ b ∈ m.blame,
      ∃ ib ic, pyIndex (commitHashes history) b = some ib ∧
        pyIndex (commitHashes history) c.hash = some ic ∧ ib < ic)
    (hrun : get_fixing_files history isRelevant fixing_commits ff0 = .ok (fc', ffs)) :
    ∀ f ∈ ffs, ∃ ib ifc, pyIndex (commitHashes history) f.bic = some ib ∧
      pyIndex (commitHashes history) f.fic = some ifc ∧ ib ≤ ifc := by
  unfold get_fixing_files at hrun
  rw [if_neg (by simpa using hne)] at hrun
  dsimp only at hrun
  split at hrun
  · split at hrun
    · cases hrun
    · split at hrun
      · cases hrun
      · split at hrun
        · rename_i rn2 ffs2 hgo
          cases hrun
          refine goCommitsExtract_inv (commitHashes history) isRelevant _ _
            ([], []) (rn2, ffs) ?_ ?_ hgo
          · intro c hc m hm b hb
            have hmem : c ∈ history := by
              have h1 := List.mem_reverse.mp hc
              have h2 := List.take_subset _ _ h1
              exact List.drop_subset _ _ h2
            exact hblame c hmem m hm b hb
          · intro f hf
            cases hf
        · cases hrun
  · cases hrun

/-- C6 witness: the invariant instantiated on a concrete two-commit
repository where h1 fixes file `a` blamed on h0. -/
theorem get_fixing_files_bic_le_fic_witness :
    ∃ ib ifc,
      pyIndex (commitHashes histC6w) (FixingFile.mk (some "a") "h0" "h1").bic = some ib ∧
      pyIndex (commitHashes histC6w) (FixingFile.mk (some "a") "h0" "h1").fic = some ifc ∧
      ib ≤ ifc := by
  have hb : ∀ c ∈ histC6w, ∀ m ∈ c.modifications, ∀ b ∈ m.blame,
      ∃ ib ic, pyIndex (commitHashes histC6w) b = some ib ∧
        pyIndex (commitHashes histC6w) c.hash = some ic ∧ ib < ic := by
    intro c hc m hm b hb
    simp only [histC6w, List.mem_cons, List.not_mem_nil, or_false] at hc
    rcases hc with hc | hc
    · subst hc
      simp at hm
    · subst hc
      simp only [List.mem_cons, List.not_mem_nil, or_false] at hm
      subst hm
      simp only [List.mem_cons, List.not_mem_nil, or_false] at hb
      subst hb
      exact ⟨0, 1, by decide, by decide, by decide⟩
  exact get_fixing_files_bic_le_fic histC6w (fun _ => true) ["h1"] []
    ["h1"] [⟨some "a", "h0", "h1"⟩] (by decide) hb (by rfl)
    ⟨some "a", "h0", "h1"⟩ (by decide)

/-- C7: a commit is collected by the message scan of
get_fixing_commits_from_commit_messages exactly when the remainder of
its message after stripping the leading run matching
`(\w+(bug|fix)\w)*` (case-insensitively) matches the default regex
`(bug|fix|error|crash|problem|fail|defect|patch)` case-insensitively:
the raw message is never consulted.  The code implements the cleaning as
`re.sub` of the leading-run text over the whole message; removing the
extra non-leading occurrences provably cannot change the outcome of the
anchored regex test, so collection coincides with the claim's
leading-strip reading. -/
theorem collect_matches_cleaned_remainder (history : List Commit) (c : Commit)
    (hc : c ∈ history) (hnodup : (commitHashes history).Nodup) :
    c.hash ∈ (history.filter (fun c' => msgTest matchDefaultRegex c'.msg)).map (·.hash) ↔
      matchDefaultRegex ((c.msg.drop (leadingRunLen c.msg)).map lcChar) = true := by
  rw [← msgTest_eq_leading_strip]
  constructor
  · intro hmem
    obtain ⟨c', hc', hh⟩ := List.mem_map.mp hmem
    obtain ⟨hc'h, hp⟩ := List.mem_filter.mp hc'
    have hcc : c' = c := List.inj_on_of_nodup_map hnodup hc'h hc hh
    rw [← hcc]
    exact hp
  · intro hp
    exact List.mem_map.mpr ⟨c, List.mem_filter.mpr ⟨hc, hp⟩, rfl⟩

/-- C7 witness: on a concrete repository, the commit whose raw message
starts with `bug` but cleans to ` applied` is characterized by the
cleaned-remainder test (which is false there), not by the raw match. -/
theorem collect_matches_cleaned_remainder_witness :
    ("h0" ∈ (histC7w.filter (fun c' => msgTest matchDefaultRegex c'.msg)).map (·.hash) ↔
      matchDefaultRegex ((("bugfix2 applied".toList).drop
        (leadingRunLen ("bugfix2 applied".toList))).map lcChar) = true) :=
  collect_matches_cleaned_remainder histC7w ⟨"h0", "bugfix2 applied".toList, []⟩
    (by decide) (by decide)

/-- C8: if a FixingFile's fic is absent from the commit history index —
or its fic is indexed but its bic is absent — the labeling walk stops at
its very first window comparison with the corresponding ValueError (the
UnknownCommitError of the spec): the error is propagated to the caller
and not recovered, no value has been yielded, and no entry has been
dropped (the FixingFile objects are returned untouched).  Stated for the
first tracked file, the first one the walk examines. -/
theorem label_unknown_commit_error (history : List Commit)
    (fixing_commits : List String) (files0 : Array FixingFile)
    (lastF : String) (ilast : Nat)
    (hne : files0.size ≠ 0)
    (hlast : fixing_commits.getLast? = some lastF)
    (hil : pyIndex (commitHashes history) lastF = some ilast) :
    (pyIndex (commitHashes history) (files0.getD 0 default).fic = none →
      label history fixing_commits files0 =
        ⟨[], some (.valueError (files0.getD 0 default).fic), files0⟩) ∧
    (∀ ific, pyIndex (commitHashes history) (files0.getD 0 default).fic = some ific →
      pyIndex (commitHashes history) (files0.getD 0 default).bic = none →
      label history fixing_commits files0 =
        ⟨[], some (.valueError (files0.getD 0 default).bic), files0⟩) := by
  constructor
  · intro hfic
    exact label_first_entry_err history fixing_commits files0 lastF ilast _ hne hlast hil
      (fun c fp0 s restG out =>
        processCommit_first_fic_missing (commitHashes history) c files0 fp0 s restG out hfic)
  · intro ific hfic hbic
    exact label_first_entry_err history fixing_commits files0 lastF ilast _ hne hlast hil
      (fun c fp0 s restG out =>
        processCommit_first_bic_missing (commitHashes history) c files0 fp0 s restG out
          ific hfic hbic)

/-- C8 witness: a concrete repository whose single FixingFile carries a
fic absent from the index; the labeling run fails with that ValueError
and yields nothing. -/
theorem label_unknown_commit_error_witness :
    label [⟨"h0", [], []⟩, ⟨"h1", [], []⟩] ["h1"] #[⟨some "p", "h0", "zzz"⟩] =
      ⟨[], some (.valueError "zzz"), #[⟨some "p", "h0", "zzz"⟩]⟩ := by
  have h := label_unknown_commit_error [⟨"h0", [], []⟩, ⟨"h1", [], []⟩] ["h1"]
    #[⟨some "p", "h0", "zzz"⟩] "h1" 1 (by decide) (by decide) (by decide)
  exact h.1 (by decide)

/-- C10 witness: two entries share a path; merging a refinement updates
the first entry's bic and the later entry is untouched. -/
theorem mergeFix_first_entry_only_witness :
    (∃ g, [(⟨some "p", "c", "d"⟩ : FixingFile), ⟨some "p", "a", "b"⟩].get? 0 = some g ∧
       g.filepath = some "p") ∧
    (∀ j g, j < 0 →
       [(⟨some "p", "c", "d"⟩ : FixingFile), ⟨some "p", "a", "b"⟩].get? j = some g →
       g.filepath ≠ some "p") ∧
    (∀ j g, j < 2 → j ≠ 0 →
       [(⟨some "p", "c", "d"⟩ : FixingFile), ⟨some "p", "a", "b"⟩].get? j = some g →
       [(⟨some "p", "b", "d"⟩ : FixingFile), ⟨some "p", "a", "b"⟩].get? j = some g) := by
  have h := mergeFix_first_entry_only ["a", "b", "c", "d"]
    [⟨some "p", "c", "d"⟩, ⟨some "p", "a", "b"⟩] ⟨some "p", "b", "c"⟩ 0
    [⟨some "p", "b", "d"⟩, ⟨some "p", "a", "b"⟩] (by decide) (by rfl)
  exact h


/-- C9: invoking mine twice on the same miner state against an unchanged
history with the same relevance filter, message test and issue-derived
fixes yields the same labeled stream and the same post state: the second
run re-extends fixing_commits with the same issue- and message-derived
hashes and sort_commits (a filter of commit_hashes) absorbs the
duplicates, so the fixing-commit order, the recomputed fixing-files list
and the label stream are reproduced. -/
theorem mine_idempotent (history : List Commit) (isRelevant : Path → Bool)
    (rtest : List Char → Bool) (fixes_from_issues : List String)
    (st0 st1 st2 : List String × List FixingFile) (r1 r2 : LabelResult)
    (h1 : mine history isRelevant rtest fixes_from_issues st0 = .ok (r1, st1))
    (h2 : mine history isRelevant rtest fixes_from_issues st1 = .ok (r2, st2)) :
    r2 = r1 ∧ st2 = st1 := by
  unfold mine at h1
  dsimp only at h1
  split at h1
  · cases h1
  · next fc1 rF1 hI1 =>
    split at h1
    · cases h1
    · next fc2 rM1 hM1 =>
      split at h1
      · cases h1
      · next fc3 ff1 hG1 =>
        cases h1
        unfold mine at h2
        dsimp only at h2
        split at h2
        · cases h2
        · next fc1' rF2 hI2 =>
          split at h2
          · cases h2
          · next fc2' rM2 hM2 =>
            split at h2
            · cases h2
            · next fc3' ff2 hG2 =>
              cases h2
              obtain ⟨hD1, hD1'⟩ := issues_pair history isRelevant fixes_from_issues
                st0.1 fc3 fc1 fc1' rF1 rF2 hI1 hI2
              obtain ⟨hD2, hD2'⟩ := messages_pair history isRelevant rtest
                fc1 fc1' fc2 fc2' rM1 rM2 hM1 hM2
              rcases gff_ok_cases history isRelevant fc2 st0.2 fc3 ff1 hG1 with
                  ⟨hc2nil, hfc3, hff1⟩ | ⟨hc2ne, hfc3, hfc3ne⟩
              · subst hfc3
                subst hc2nil
                subst hff1
                have keyL : ∀ x ∈ commitHashes history, x ∉ fc2' := by
                  intro x hx hmem
                  have hm2 := stage_mem_or _ _ _ _ hD2 x hx
                  have hm1 := stage_mem_or _ _ _ _ hD1 x hx
                  rcases (stage_mem_or _ _ _ _ hD2' x hx).mp hmem with hin1 | hinM
                  · rcases (stage_mem_or _ _ _ _ hD1' x hx).mp hin1 with hin3 | hinF
                    · exact List.not_mem_nil x hin3
                    · exact List.not_mem_nil x (hm2.mpr (Or.inl (hm1.mpr (Or.inr hinF))))
                  · exact List.not_mem_nil x (hm2.mpr (Or.inr hinM))
                have hnil2 : fc2' = [] := by
                  rcases hD2' with ⟨he2, -⟩ | he2
                  · rcases hD1' with ⟨he1, -⟩ | he1
                    · rw [he2, he1]
                    · refine List.eq_nil_iff_forall_not_mem.mpr (fun x hx => ?_)
                      have hx2 := hx
                      rw [he2, he1] at hx2
                      exact keyL x ((mem_sort_commits _ _ x).mp hx2).1 hx
                  · refine List.eq_nil_iff_forall_not_mem.mpr (fun x hx => ?_)
                    have hx2 := hx
                    rw [he2] at hx2
                    exact keyL x ((mem_sort_commits _ _ x).mp hx2).1 hx
                rw [hnil2, gff_nil] at hG2
                cases hG2
                have hX : (label history [] (List.toArray st0.2)).files.toList = st0.2 := by
                  rw [label_nil_files, Array.toList_toArray]
                rw [hX]
                exact ⟨rfl, rfl⟩
              · have keyR : ∀ x ∈ commitHashes history, (x ∈ fc2' ↔ x ∈ fc2) := by
                  intro x hx
                  have hm1 := stage_mem_or _ _ _ _ hD1 x hx
                  have hm2 := stage_mem_or _ _ _ _ hD2 x hx
                  have hm1' := stage_mem_or _ _ _ _ hD1' x hx
                  have hm2' := stage_mem_or _ _ _ _ hD2' x hx
                  have hm3 : x ∈ fc3 ↔ x ∈ fc2 := by
                    rw [hfc3, mem_sort_commits]
                    simp [hx]
                  rw [hm2', hm1', hm3, hm2, hm1]
                  constructor
                  · intro h
                    rcases h with (h | h) | h
                    · exact h
                    · exact Or.inl (Or.inr h)
                    · exact Or.inr h
                  · intro h
                    exact Or.inl (Or.inl h)
                have hs := sort_commits_congr (commitHashes history) fc2' fc2 keyR
                obtain ⟨y, hy⟩ := List.exists_mem_of_ne_nil fc3 hfc3ne
                rw [hfc3] at hy
                obtain ⟨hych, hyfc2⟩ := (mem_sort_commits _ _ _).mp hy
                have hne2 : fc2' ≠ [] := List.ne_nil_of_mem ((keyR y hych).mpr hyfc2)
                have hE2' : fc2'.isEmpty = false := by
                  cases hE : fc2'.isEmpty
                  · rfl
                  · exact absurd (List.isEmpty_iff.mp hE) hne2
                have hE2 : fc2.isEmpty = false := by
                  cases hE : fc2.isEmpty
                  · rfl
                  · exact absurd (List.isEmpty_iff.mp hE) hc2ne
                rw [gff_congr history isRelevant fc2' fc2 _ st0.2 hE2' hE2 hs, hG1] at hG2
                cases hG2
                exact ⟨rfl, rfl⟩

/-- C9 witness: a one-commit repository with its fixing commit supplied
by the issue tracker; both runs of mine return the same stream and the
same state. -/
theorem mine_idempotent_witness :
    (⟨[none], none, #[]⟩ : LabelResult) = ⟨[none], none, #[]⟩ ∧
    ((["h0"], []) : List String × List FixingFile) = (["h0"], []) :=
  mine_idempotent histC9w (fun _ => true) (fun _ => false) ["h0"]
    ([], []) (["h0"], []) (["h0"], []) ⟨[none], none, #[]⟩ ⟨[none], none, #[]⟩
    (by rfl) (by rfl)


end IacMiner
